import Mathlib

/-!
# Socket-address marshalling and iovec construction (`utils.go`)

A shallow embedding of the four functions of `utils.go`:

* `bytes2iovec`   — buffers to `(Base, Len)` descriptors,
* `sockaddr`      — `syscall.Sockaddr` to a raw region, its length and an error,
* `anyToSockaddr` — raw region back to a `syscall.Sockaddr`,
* `roundup`       — `_Socklen` rounded up to a multiple of 4.

Memory is a list of bytes (`Nat` values below 256).  A struct field is a
range of offsets in that list; multi-byte integer fields (`Family`,
`Scope_id`) are laid out in the host byte order, which is a parameter.
Go's `int` port is an `Int`; `byte(x)` keeps the low eight bits.
-/

namespace Iouring

/-! ## Values of package `syscall` -/

/-- The two `syscall.Errno` values this file returns. -/
inductive Errno
  | EINVAL
  | EAFNOSUPPORT
  deriving DecidableEq, Repr

/-- Byte order of the host, which fixes the layout of `uint16`/`uint32` fields. -/
inductive ByteOrder
  | littleEndian
  | bigEndian
  deriving DecidableEq, Repr

/-- Modelled from the spec: the constant `syscall.AF_UNIX` (Linux), declared in Go's
`syscall` package and not in `utils.go`. -/
def AF_UNIX : Nat := 1

/-- Modelled from the spec: the constant `syscall.AF_INET` (Linux), declared in Go's
`syscall` package and not in `utils.go`. -/
def AF_INET : Nat := 2

/-- Modelled from the spec: the constant `syscall.AF_INET6` (Linux), declared in Go's
`syscall` package and not in `utils.go`. -/
def AF_INET6 : Nat := 10

/-- Modelled from the spec: the constant `syscall.SizeofSockaddrInet4`, the size of
`RawSockaddrInet4 { Family uint16; Port uint16; Addr [4]byte; Zero [8]uint8 }`. -/
def SizeofSockaddrInet4 : Nat := 16

/-- Modelled from the spec: the constant `syscall.SizeofSockaddrInet6`, the size of
`RawSockaddrInet6 { Family uint16; Port uint16; Flowinfo uint32; Addr [16]byte; Scope_id uint32 }`. -/
def SizeofSockaddrInet6 : Nat := 28

/-- Modelled from the spec: the constant `syscall.SizeofSockaddrUnix`, the size of
`RawSockaddrUnix { Family uint16; Path [108]int8 }`. -/
def SizeofSockaddrUnix : Nat := 110

/-- Modelled from the spec: `len(raw.Path)`, the capacity of the `Path` field of
`syscall.RawSockaddrUnix`. -/
def lenPath : Nat := 108

/-- Modelled from the spec: offset of `Family`, the leading `uint16` tag of every raw
structure of Go's `syscall` package. -/
def offFamily : Nat := 0
/-- Modelled from the spec: offset of `Port` in `syscall.RawSockaddrInet4` and
`syscall.RawSockaddrInet6`, right after the family tag. -/
def offPort : Nat := 2
/-- Modelled from the spec: offset of `Addr` in `syscall.RawSockaddrInet4`. -/
def offAddr4 : Nat := 4
/-- Modelled from the spec: offset of the padding `Zero` in `syscall.RawSockaddrInet4`. -/
def offZero4 : Nat := 8
/-- Modelled from the spec: offset of `Flowinfo` in `syscall.RawSockaddrInet6`. -/
def offFlowinfo : Nat := 4
/-- Modelled from the spec: offset of `Addr` in `syscall.RawSockaddrInet6`. -/
def offAddr6 : Nat := 8
/-- Modelled from the spec: offset of `Scope_id` in `syscall.RawSockaddrInet6`. -/
def offScopeId : Nat := 24
/-- Modelled from the spec: offset of `Path` in `syscall.RawSockaddrUnix`, right after
the family tag. -/
def offPath : Nat := 2

/-- Modelled from the spec: the implementations of the interface `syscall.Sockaddr`,
declared in Go's `syscall` package.  `Port` is a Go `int`,
`Addr` a `[4]byte` / `[16]byte`, `ZoneId` a `uint32`, `Name` a `string` (its bytes).
`Other` stands for every implementation the type switch of `sockaddr` does not
list (`*SockaddrLinklayer`, `*SockaddrNetlink`, ...).  The nil interface value is
`none : Option Sockaddr`. -/
inductive Sockaddr
  | Inet4 (Port : Int) (Addr : List Nat)
  | Inet6 (Port : Int) (ZoneId : Nat) (Addr : List Nat)
  | Unix (Name : List Nat)
  | Other
  deriving DecidableEq, Repr

/-- A byte: a value a Go `byte` can hold. -/
def isByte (b : Nat) : Bool := decide (b < 256)

/-- Every element of the list is a byte. -/
def allBytes (bs : List Nat) : Bool := bs.all isByte

/-- A `*SockaddrInet4` whose fields hold values of their Go types, with the port in
the range of a `uint16`. -/
def validInet4 (port : Int) (addr : List Nat) : Bool :=
  decide (0 ≤ port) && decide (port ≤ 65535) && decide (addr.length = 4) && allBytes addr

/-- A `*SockaddrInet6` whose fields hold values of their Go types, with the port in
the range of a `uint16`. -/
def validInet6 (port : Int) (zone : Nat) (addr : List Nat) : Bool :=
  decide (0 ≤ port) && decide (port ≤ 65535) && decide (zone < 4294967296) &&
    decide (addr.length = 16) && allBytes addr

/-! ## Memory access -/

/-- The conversion `byte(x)` of a Go `int`: the low eight bits. -/
def byte (x : Int) : Nat := (x % 256).toNat

/-- The conversion `int8(b)` of a byte: the signed value with the same eight bits. -/
def int8 (b : Nat) : Int := if b % 256 < 128 then (b % 256 : Nat) else ((b % 256 : Nat) : Int) - 256

/-- The byte that an `int8` value occupies in memory (two's complement). -/
def int8Bits (x : Int) : Nat := (x % 256).toNat

/-- Reads the byte at offset `i`. -/
def load (mem : List Nat) (i : Nat) : Nat := mem.getD i 0

/-- Stores a `uint16` at offset `off` in host byte order. -/
def putUint16 (o : ByteOrder) (mem : List Nat) (off v : Nat) : List Nat :=
  match o with
  | .littleEndian => (mem.set off (v % 256)).set (off + 1) (v / 256 % 256)
  | .bigEndian => (mem.set off (v / 256 % 256)).set (off + 1) (v % 256)

/-- Loads the `uint16` at offset `off` in host byte order. -/
def getUint16 (o : ByteOrder) (mem : List Nat) (off : Nat) : Nat :=
  match o with
  | .littleEndian => load mem off + 256 * load mem (off + 1)
  | .bigEndian => 256 * load mem off + load mem (off + 1)

/-- Stores a `uint32` at offset `off` in host byte order. -/
def putUint32 (o : ByteOrder) (mem : List Nat) (off v : Nat) : List Nat :=
  match o with
  | .littleEndian =>
      (((mem.set off (v % 256)).set (off + 1) (v / 256 % 256)).set (off + 2)
        (v / 65536 % 256)).set (off + 3) (v / 16777216 % 256)
  | .bigEndian =>
      (((mem.set off (v / 16777216 % 256)).set (off + 1) (v / 65536 % 256)).set (off + 2)
        (v / 256 % 256)).set (off + 3) (v % 256)

/-- Loads the `uint32` at offset `off` in host byte order. -/
def getUint32 (o : ByteOrder) (mem : List Nat) (off : Nat) : Nat :=
  match o with
  | .littleEndian =>
      load mem off + 256 * load mem (off + 1) + 65536 * load mem (off + 2) +
        16777216 * load mem (off + 3)
  | .bigEndian =>
      16777216 * load mem off + 65536 * load mem (off + 1) + 256 * load mem (off + 2) +
        load mem (off + 3)

/-- The loop `for i := 0; i < n; i++ { body }` acting on a state. -/
def forLoop {σ : Type} (n : Nat) (body : Nat → σ → σ) (s : σ) : σ :=
  (List.range n).foldl (fun st i => body i st) s

/-! ## `roundup` -/

/-- The function `roundup(l *_Socklen) error`: takes `*l` and returns the final `*l`
with the error.  `_Socklen` is `uint32`, so `*l + 3` wraps modulo `2^32` and
`^_Socklen(3)` is `0xFFFFFFFC`. -/
def roundup (l : Nat) : Nat × Option Errno :=
  if l % 4 ≠ 0 then
    if l > 2147483647 then
      (l, some Errno.EINVAL)
    else
      (Nat.land ((l + 3) % 4294967296) 4294967292, none)
  else
    (l, none)

/-! ## `sockaddr` -/

/-- The function `sockaddr(addr syscall.Sockaddr) (unsafe.Pointer, uint32, error)`.
The pointer is `none` for `unsafe.Pointer(uintptr(0))` and otherwise the bytes of
the raw structure it points to. -/
def sockaddr (o : ByteOrder) (addr : Option Sockaddr) : Option (List Nat) × Nat × Option Errno :=
  match addr with
  | none => (none, 0, none)
  | some (Sockaddr.Inet4 port a) =>
      let raw := List.replicate SizeofSockaddrInet4 0
      let raw := putUint16 o raw offFamily AF_INET
      let raw := raw.set offPort (byte (port >>> (8 : Nat)))
      let raw := raw.set (offPort + 1) (byte port)
      let raw := forLoop 4 (fun i r => r.set (offAddr4 + i) (a.getD i 0)) raw
      (some raw, SizeofSockaddrInet4, none)
  | some (Sockaddr.Inet6 port zone a) =>
      let raw := List.replicate SizeofSockaddrInet6 0
      let raw := putUint16 o raw offFamily AF_INET6
      let raw := raw.set offPort (byte (port >>> (8 : Nat)))
      let raw := raw.set (offPort + 1) (byte port)
      let raw := putUint32 o raw offScopeId zone
      let raw := forLoop 16 (fun i r => r.set (offAddr6 + i) (a.getD i 0)) raw
      (some raw, SizeofSockaddrInet6, none)
  | some (Sockaddr.Unix name) =>
      let n := name.length
      let raw := List.replicate SizeofSockaddrUnix 0
      if n > lenPath then
        (none, 0, some Errno.EINVAL)
      else
        let raw := putUint16 o raw offFamily AF_UNIX
        let raw := forLoop n (fun i r => r.set (offPath + i) (int8Bits (int8 (name.getD i 0)))) raw
        let sl := (2 + n + 1) % 4294967296
        match roundup sl with
        | (_, some err) => (none, 0, some err)
        | (sl, none) => (some raw, sl, none)
  | some Sockaddr.Other => (none, 0, some Errno.EAFNOSUPPORT)

/-! ## `anyToSockaddr` -/

/-- The loop `for n < len(pp.Path) && pp.Path[n] != 0 { n++ }`, started at `n` with
`fuel` iterations allowed. -/
def scanPath (mem : List Nat) : Nat → Nat → Nat
  | 0, n => n
  | fuel + 1, n =>
      if n < lenPath ∧ int8 (load mem (offPath + n)) ≠ 0 then scanPath mem fuel (n + 1) else n

/-- The function `anyToSockaddr(rsa *syscall.RawSockaddrAny) (syscall.Sockaddr, error)`.
It takes the bytes of `*rsa` and returns them as the call leaves them, followed by
the two results; a nil `syscall.Sockaddr` and a nil `error` are `none`. -/
def anyToSockaddr (o : ByteOrder) (rsa : List Nat) : List Nat × Option Sockaddr × Option Errno :=
  let family := getUint16 o rsa offFamily
  if family = AF_UNIX then
    let pp := if int8 (load rsa offPath) = 0 then rsa.set offPath (int8Bits 64) else rsa
    let n := scanPath pp lenPath 0
    let bytes := (pp.drop offPath).take n
    (pp, some (Sockaddr.Unix bytes), none)
  else if family = AF_INET then
    let port : Int := ((load rsa offPort : Nat) : Int) <<< (8 : Int) + ((load rsa (offPort + 1) : Nat) : Int)
    let a := forLoop 4 (fun i s => s.set i (load rsa (offAddr4 + i))) (List.replicate 4 0)
    (rsa, some (Sockaddr.Inet4 port a), none)
  else if family = AF_INET6 then
    let port : Int := ((load rsa offPort : Nat) : Int) <<< (8 : Int) + ((load rsa (offPort + 1) : Nat) : Int)
    let zone := getUint32 o rsa offScopeId
    let a := forLoop 16 (fun i s => s.set i (load rsa (offAddr6 + i))) (List.replicate 16 0)
    (rsa, some (Sockaddr.Inet6 port zone a), none)
  else
    (rsa, none, some Errno.EAFNOSUPPORT)

/-! ## `bytes2iovec` -/

/-- A pointer value as far as `bytes2iovec` distinguishes them: the nil pointer, the
address of the package-level variable `zero`, or the address of element `index`
of the backing array `array`. -/
inductive Pointer
  | nil
  | zero
  | elem (array : Nat) (index : Nat)
  deriving DecidableEq, Repr

/-- A `[]byte`: the backing array it views, the index of its first element there
and its elements. -/
structure Slice where
  array : Nat
  first : Nat
  data : List Nat
  deriving DecidableEq, Repr

/-- Modelled from the spec: the struct `syscall.Iovec { Base *byte; Len uint64 }`,
declared in Go's `syscall` package. -/
structure Iovec where
  Base : Pointer
  Len : Nat
  deriving DecidableEq, Repr

/-- Modelled from the spec: the method `(*syscall.Iovec).SetLen(length int)`, declared
in Go's `syscall` package: `iov.Len = uint64(length)`. -/
def Iovec.SetLen (iov : Iovec) (length : Nat) : Iovec :=
  { iov with Len := length % 18446744073709551616 }

/-- The function `bytes2iovec(bs [][]byte) []syscall.Iovec`. -/
def bytes2iovec (bs : List Slice) : List Iovec :=
  let iovecs := List.replicate bs.length (Iovec.mk Pointer.nil 0)
  forLoop bs.length (fun i iovecs =>
    let b := bs.getD i (Slice.mk 0 0 [])
    let iovecs := iovecs.modify (fun iov => iov.SetLen b.data.length) i
    if b.data.length > 0 then
      iovecs.modify (fun iov => { iov with Base := Pointer.elem b.array b.first }) i
    else
      iovecs.modify (fun iov => { iov with Base := Pointer.zero }) i) iovecs

/-! ## Derived definitions used to state the results -/

/-- The raw structure `sockaddr` fills for a Unix-domain name. -/
def rawUnix (o : ByteOrder) (name : List Nat) : List Nat :=
  forLoop name.length (fun i r => r.set (offPath + i) (int8Bits (int8 (name.getD i 0))))
    (putUint16 o (List.replicate SizeofSockaddrUnix 0) offFamily AF_UNIX)

/-- The two bytes of a `uint16` in host byte order. -/
def uint16Bytes (o : ByteOrder) (v : Nat) : List Nat :=
  match o with
  | .littleEndian => [v % 256, v / 256 % 256]
  | .bigEndian => [v / 256 % 256, v % 256]

/-- A path byte that does not stop the scan of `anyToSockaddr`. -/
def nonNul (b : Nat) : Bool := decide (int8 b ≠ 0)

/-- The region as `anyToSockaddr` leaves it on its `AF_UNIX` branch. -/
def unixRegion (rsa : List Nat) : List Nat :=
  if int8 (load rsa offPath) = 0 then rsa.set offPath (int8Bits 64) else rsa

/-- An IPv4 or IPv6 address whose fields hold values of their Go types and whose
port is in `0..65535`. -/
def validIP (sa : Sockaddr) : Bool :=
  match sa with
  | Sockaddr.Inet4 port a => validInet4 port a
  | Sockaddr.Inet6 port zone a => validInet6 port zone a
  | _ => false

/-- The descriptor `bytes2iovec` builds for one buffer. -/
def iovecOf (b : Slice) : Iovec :=
  { Base := if b.data.length > 0 then Pointer.elem b.array b.first else Pointer.zero,
    Len := b.data.length % 18446744073709551616 }

/-- One iteration of the loop of `bytes2iovec`. -/
def iovecStep (bs : List Slice) (i : Nat) (iovecs : List Iovec) : List Iovec :=
  let b := bs.getD i (Slice.mk 0 0 [])
  let iovecs := iovecs.modify (fun iov => iov.SetLen b.data.length) i
  if b.data.length > 0 then
    iovecs.modify (fun iov => { iov with Base := Pointer.elem b.array b.first }) i
  else
    iovecs.modify (fun iov => { iov with Base := Pointer.zero }) i

/-- A 16-byte region of family `AF_INET` whose padding `Zero` is all zero. -/
def validRawInet4 (o : ByteOrder) (rsa : List Nat) : Bool :=
  decide (rsa.length = SizeofSockaddrInet4) && allBytes rsa &&
    decide (getUint16 o rsa offFamily = AF_INET) &&
    decide ((rsa.drop offZero4).take 8 = List.replicate 8 0)

/-- A 28-byte region of family `AF_INET6` whose `Flowinfo` is zero. -/
def validRawInet6 (o : ByteOrder) (rsa : List Nat) : Bool :=
  decide (rsa.length = SizeofSockaddrInet6) && allBytes rsa &&
    decide (getUint16 o rsa offFamily = AF_INET6) &&
    decide ((rsa.drop offFlowinfo).take 4 = List.replicate 4 0)

/-! ## Loops, loads and stores -/

theorem forLoop_succ {σ : Type} (n : Nat) (body : Nat → σ → σ) (s : σ) :
    forLoop (n + 1) body s = body n (forLoop n body s) := by
  simp [forLoop, List.range_succ, List.foldl_append]

theorem forLoop_zero {σ : Type} (body : Nat → σ → σ) (s : σ) : forLoop 0 body s = s := rfl

/-- A loop that stores `f i` at offset `off + i` for `i < n` overwrites exactly that range. -/
theorem forLoop_set (f : Nat → Nat) (off : Nat) (raw : List Nat) :
    ∀ n : Nat, off + n ≤ raw.length →
      forLoop n (fun i r => r.set (off + i) (f i)) raw =
        raw.take off ++ (List.range n).map f ++ raw.drop (off + n)
  | 0, _ => by simp [forLoop_zero]
  | n + 1, h => by
      rw [forLoop_succ, forLoop_set f off raw n (by omega)]
      have hlen : (raw.take off ++ (List.range n).map f).length = off + n := by
        simp; omega
      rw [List.set_append_right _ _ (by omega), hlen, Nat.sub_self]
      have hd : raw.drop (off + n) = raw[off + n] :: raw.drop (off + n + 1) := by
        rw [List.drop_eq_getElem_cons]
      rw [hd]
      simp [List.range_succ, Nat.add_assoc]

theorem int8Bits_int8 (b : Nat) : int8Bits (int8 b) = b % 256 := by
  unfold int8Bits int8
  split <;> omega

theorem int8_eq_zero (b : Nat) : int8 b = 0 ↔ b % 256 = 0 := by
  unfold int8
  split <;> omega


theorem load_of_lt (mem : List Nat) (i : Nat) (h : i < mem.length) : load mem i = mem[i] := by
  unfold load; exact List.getD_eq_getElem _ _ h

theorem load_of_le (mem : List Nat) (i : Nat) (h : mem.length ≤ i) : load mem i = 0 := by
  unfold load; exact List.getD_eq_default _ _ h

theorem scanPath_eq (mem : List Nat) :
    ∀ fuel n : Nat,
      scanPath mem fuel n =
        n + (((mem.drop (offPath + n)).take (min fuel (lenPath - n))).takeWhile nonNul).length
  | 0, n => by simp [scanPath]
  | fuel + 1, n => by
      unfold scanPath
      by_cases hc : n < lenPath ∧ int8 (load mem (offPath + n)) ≠ 0
      · rw [if_pos hc, scanPath_eq mem fuel (n + 1)]
        obtain ⟨hn, hb⟩ := hc
        have hlt : offPath + n < mem.length := by
          by_contra hge
          apply hb
          rw [load_of_le _ _ (Nat.le_of_not_lt hge)]; rfl
        have hd : mem.drop (offPath + n) = mem[offPath + n] :: mem.drop (offPath + n + 1) := by
          rw [List.drop_eq_getElem_cons]
        have hm : min (fuel + 1) (lenPath - n) = min fuel (lenPath - (n + 1)) + 1 := by omega
        have hl : load mem (offPath + n) = mem[offPath + n] := load_of_lt _ _ hlt
        rw [hd, hm, List.take_succ_cons, List.takeWhile_cons_of_pos]
        · simp only [List.length_cons, Nat.add_assoc]; omega
        · simpa [nonNul, hl] using hb
      · rw [if_neg hc]
        by_cases hn : n < lenPath
        · have hb : int8 (load mem (offPath + n)) = 0 := by
            by_contra h; exact hc ⟨hn, h⟩
          by_cases hlt : offPath + n < mem.length
          · have hd : mem.drop (offPath + n) = mem[offPath + n] :: mem.drop (offPath + n + 1) := by
              rw [List.drop_eq_getElem_cons]
            have hm : min (fuel + 1) (lenPath - n) = min fuel (lenPath - (n + 1)) + 1 := by omega
            have hl : load mem (offPath + n) = mem[offPath + n] := load_of_lt _ _ hlt
            rw [hd, hm, List.take_succ_cons, List.takeWhile_cons_of_neg]
            · simp
            · simp [nonNul, ← hl, hb]
          · rw [List.drop_eq_nil_of_le (by omega)]
            simp
        · have hm : min (fuel + 1) (lenPath - n) = 0 := by omega
          rw [hm]; simp

/-- With the fuel `anyToSockaddr` gives it, the scan stops at the first NUL of the
path field, or at its end. -/
theorem scanPath_path (mem : List Nat) :
    scanPath mem lenPath 0 = (((mem.drop offPath).take lenPath).takeWhile nonNul).length := by
  rw [scanPath_eq]; simp

/-- The bytes `anyToSockaddr` takes as the name. -/
theorem take_scanPath (mem : List Nat) :
    (mem.drop offPath).take (scanPath mem lenPath 0) =
      ((mem.drop offPath).take lenPath).takeWhile nonNul := by
  rw [scanPath_path]
  have h1 : (((mem.drop offPath).take lenPath).takeWhile nonNul).length ≤ lenPath := by
    calc _ ≤ ((mem.drop offPath).take lenPath).length := (List.takeWhile_sublist _).length_le
      _ ≤ lenPath := by simp [List.length_take]
  conv_lhs => rw [← Nat.min_eq_left h1, ← List.take_take]
  generalize (mem.drop offPath).take lenPath = l
  induction l with
  | nil => simp
  | cons a t ih =>
    by_cases ha : nonNul a = true
    · simp [List.takeWhile_cons_of_pos ha, ih]
    · simp [List.takeWhile_cons_of_neg ha]


theorem putUint16_zero (o : ByteOrder) (a b : Nat) (rest : List Nat) (v : Nat) :
    putUint16 o (a :: b :: rest) 0 v = uint16Bytes o v ++ rest := by
  cases o <;> rfl

theorem getUint16_zero (o : ByteOrder) (v : Nat) (hv : v < 65536) (rest : List Nat) :
    getUint16 o (uint16Bytes o v ++ rest) 0 = v := by
  cases o <;> simp [getUint16, uint16Bytes, load] <;> omega

theorem uint16Bytes_length (o : ByteOrder) (v : Nat) : (uint16Bytes o v).length = 2 := by
  cases o <;> rfl

theorem map_range_getD (f : Nat → Nat) (l : List Nat) :
    (List.range l.length).map (fun i => f (l.getD i 0)) = l.map f := by
  apply List.ext_getElem
  · simp
  · intro i h1 h2
    simp at h1
    simp [List.getD_eq_getElem?_getD, List.getElem?_eq_getElem h1]

/-- The raw structure of a Unix-domain name that fits: family tag, the name, zero fill. -/
theorem rawUnix_eq (o : ByteOrder) (name : List Nat) (hn : name.length ≤ 108) :
    rawUnix o name =
      uint16Bytes o AF_UNIX ++ (name.map (fun b => b % 256) ++
        List.replicate (108 - name.length) 0) := by
  have h0 : List.replicate SizeofSockaddrUnix 0 = 0 :: 0 :: List.replicate 108 0 := by decide
  unfold rawUnix
  rw [h0, show offFamily = 0 from rfl, putUint16_zero]
  rw [forLoop_set (fun i => int8Bits (int8 (name.getD i 0))) offPath _ name.length
    (by simp [uint16Bytes_length, offPath]; omega)]
  have ht : List.take offPath (uint16Bytes o AF_UNIX ++ List.replicate 108 0) =
      uint16Bytes o AF_UNIX := by
    cases o <;> rfl
  have hd : List.drop (offPath + name.length) (uint16Bytes o AF_UNIX ++ List.replicate 108 0) =
      List.replicate (108 - name.length) 0 := by
    have hl : offPath + name.length = (uint16Bytes o AF_UNIX).length + name.length := by
      rw [uint16Bytes_length]; rfl
    rw [hl, List.drop_append, List.drop_replicate]
  rw [ht, hd, map_range_getD (fun b => int8Bits (int8 b))]
  simp [int8Bits_int8]


/-- The result of `anyToSockaddr` on a region whose family is `AF_UNIX`. -/
theorem anyToSockaddr_unix (o : ByteOrder) (rsa : List Nat)
    (hf : getUint16 o rsa offFamily = AF_UNIX) :
    anyToSockaddr o rsa =
      (unixRegion rsa,
        some (Sockaddr.Unix ((((unixRegion rsa).drop offPath).take lenPath).takeWhile nonNul)),
        none) := by
  simp only [anyToSockaddr, hf, if_true, take_scanPath, unixRegion]

/-- The result of `anyToSockaddr` on a region whose family is `AF_INET`. -/
theorem anyToSockaddr_inet4 (o : ByteOrder) (rsa : List Nat)
    (hf : getUint16 o rsa offFamily = AF_INET) :
    anyToSockaddr o rsa =
      (rsa,
        some (Sockaddr.Inet4
          (((load rsa offPort : Nat) : Int) <<< (8 : Int) + ((load rsa (offPort + 1) : Nat) : Int))
          (forLoop 4 (fun i s => s.set i (load rsa (offAddr4 + i))) (List.replicate 4 0))),
        none) := by
  have n21 : ¬ (AF_INET = AF_UNIX) := by decide
  simp only [anyToSockaddr, hf, n21, if_true, if_false]

/-- The result of `anyToSockaddr` on a region whose family is `AF_INET6`. -/
theorem anyToSockaddr_inet6 (o : ByteOrder) (rsa : List Nat)
    (hf : getUint16 o rsa offFamily = AF_INET6) :
    anyToSockaddr o rsa =
      (rsa,
        some (Sockaddr.Inet6
          (((load rsa offPort : Nat) : Int) <<< (8 : Int) + ((load rsa (offPort + 1) : Nat) : Int))
          (getUint32 o rsa offScopeId)
          (forLoop 16 (fun i s => s.set i (load rsa (offAddr6 + i))) (List.replicate 16 0))),
        none) := by
  have n101 : ¬ (AF_INET6 = AF_UNIX) := by decide
  have n102 : ¬ (AF_INET6 = AF_INET) := by decide
  simp only [anyToSockaddr, hf, n101, n102, if_true, if_false]

theorem nonNul_of_byte (b : Nat) (hb : b < 256) (h0 : b ≠ 0) : nonNul b = true := by
  simp [nonNul, int8_eq_zero]; omega

theorem takeWhile_nonNul_append_zeros (l : List Nat) (k : Nat) (h : ∀ b ∈ l, nonNul b = true) :
    (l ++ List.replicate k 0).takeWhile nonNul = l := by
  induction l with
  | nil =>
    cases k with
    | zero => rfl
    | succ k => rw [List.nil_append, List.replicate_succ, List.takeWhile_cons_of_neg]; decide
  | cons a t ih =>
    rw [List.cons_append, List.takeWhile_cons_of_pos (h a (List.mem_cons_self _ _)),
      ih (fun b hb => h b (List.mem_cons_of_mem _ hb))]

theorem map_mod_of_allBytes (l : List Nat) (h : allBytes l = true) :
    l.map (fun b => b % 256) = l := by
  induction l with
  | nil => rfl
  | cons a t ih =>
    simp [allBytes, isByte] at h ih ⊢
    exact ⟨by omega, ih h.2⟩


/-! ## Arithmetic of `roundup` -/

/-- Masking a 32-bit value with `0xFFFFFFFC` clears its two low bits. -/
theorem land_mask (x : Nat) (hx : x < 4294967296) : Nat.land x 4294967292 = 4 * (x / 4) := by
  show x &&& 4294967292 = 4 * (x / 4)
  apply Nat.eq_of_testBit_eq
  intro i
  rw [Nat.testBit_land]
  have h4 : (4 : Nat) = 2 ^ 2 := by norm_num
  rw [h4, Nat.testBit_mul_pow_two, ← Nat.shiftRight_eq_div_pow, Nat.testBit_shiftRight]
  by_cases hi : i < 32
  · by_cases h2 : 2 ≤ i
    · have hm : Nat.testBit 4294967292 i = true := by
        interval_cases i <;> decide
      have e : 2 + (i - 2) = i := by omega
      simp [hm, h2, e]
    · have hm : Nat.testBit 4294967292 i = false := by
        interval_cases i <;> decide
      simp [hm, h2]
  · have hx' : Nat.testBit x i = false := by
      apply Nat.testBit_lt_two_pow
      calc x < 2 ^ 32 := by simpa using hx
        _ ≤ 2 ^ i := Nat.pow_le_pow_right (by norm_num) (by omega)
    have e : 2 + (i - 2) = i := by omega
    simp [hx', e]

/-- The value `roundup` computes on its rounding branch, in closed form. -/
theorem roundup_round (l : Nat) (h4 : l % 4 ≠ 0) (hl : l ≤ 2147483647) :
    roundup l = (4 * ((l + 3) / 4), none) := by
  have hw : (l + 3) % 4294967296 = l + 3 := Nat.mod_eq_of_lt (by omega)
  have hm := land_mask (l + 3) (by omega)
  have hgt : ¬ l > 2147483647 := by omega
  simp only [roundup, h4, hgt, hw, hm, ne_eq, not_false_eq_true, if_true, if_false]

/-- On a multiple of 4 `roundup` changes nothing and reports no error. -/
theorem roundup_aligned (l : Nat) (h4 : l % 4 = 0) : roundup l = (l, none) := by
  simp [roundup, h4]

/-- Examples of `roundup` from its specification: 0, 4 and 8 stay, 5 becomes 8, 9 becomes 12. -/
theorem roundup_examples :
    roundup 0 = (0, none) ∧ roundup 4 = (4, none) ∧ roundup 8 = (8, none) ∧
      roundup 5 = (8, none) ∧ roundup 9 = (12, none) := by
  decide

/-! ## Claims about `roundup` -/

/-- C6: the contract of `roundup` for every 32-bit length `l`.  A multiple of 4 is
returned unchanged without error; any other length above `2^31 - 1` fails with
`EINVAL` and is left unchanged; any other length is replaced, without error, by
`(l + 3) & ~3`, where `l + 3` does not wrap around `2^32`, and the result is the
least multiple of 4 that is at least `l`. -/
theorem roundup_contract (l : Nat) (hl : l < 4294967296) :
    (l % 4 = 0 → roundup l = (l, none)) ∧
    (l % 4 ≠ 0 → l > 2147483647 → roundup l = (l, some Errno.EINVAL)) ∧
    (l % 4 ≠ 0 → l ≤ 2147483647 →
      roundup l = (Nat.land (l + 3) 4294967292, none) ∧
      l + 3 < 4294967296 ∧
      (roundup l).1 % 4 = 0 ∧ l ≤ (roundup l).1 ∧
      ∀ m : Nat, m % 4 = 0 → l ≤ m → (roundup l).1 ≤ m) := by
  refine ⟨roundup_aligned l, ?_, ?_⟩
  · intro h4 hgt
    simp [roundup, h4, hgt]
  · intro h4 hle
    have hr := roundup_round l h4 hle
    have hm := land_mask (l + 3) (by omega)
    refine ⟨by rw [hr, hm], by omega, ?_, ?_, ?_⟩
    · rw [hr]; show 4 * ((l + 3) / 4) % 4 = 0; omega
    · rw [hr]; show l ≤ 4 * ((l + 3) / 4); omega
    · intro m hm4 hlm
      rw [hr]; show 4 * ((l + 3) / 4) ≤ m; omega

/-- The contract of `roundup` applied at 5, which is rounded to 8. -/
theorem roundup_contract_witness :
    (5 : Nat) < 4294967296 ∧ 5 % 4 ≠ 0 ∧ 5 ≤ 2147483647 ∧
      roundup 5 = (Nat.land (5 + 3) 4294967292, none) ∧ (roundup 5).1 = 8 :=
  ⟨by decide, by decide, by decide,
    ((roundup_contract 5 (by decide)).2.2 (by decide) (by decide)).1, by decide⟩

/-- C7 as stated fails: `2^31` is a multiple of 4, so `roundup` returns it unchanged
with no error. -/
theorem roundup_two_pow_31_no_error :
    roundup 2147483648 = (2147483648, none) ∧ (roundup 2147483648).2 ≠ some Errno.EINVAL := by
  decide

/-- C7, amended: on a 32-bit length above `2^31 - 1`, `roundup` fails with `EINVAL`
exactly when the length is not a multiple of 4, leaving it unchanged; a multiple of
4 in that range, such as `2^31`, is returned unchanged without error. -/
theorem roundup_above_int31 (l : Nat) (hgt : 2147483647 < l) :
    ((roundup l).2 = some Errno.EINVAL ↔ l % 4 ≠ 0) ∧
    (l % 4 ≠ 0 → roundup l = (l, some Errno.EINVAL)) ∧
    (l % 4 = 0 → roundup l = (l, none)) := by
  by_cases h4 : l % 4 = 0
  · simp [roundup, h4]
  · simp [roundup, h4, hgt]

/-- The amended C7 applied at `2^31 + 1`, which is rejected. -/
theorem roundup_above_int31_witness :
    (2147483647 : Nat) < 2147483649 ∧ roundup 2147483649 = (2147483649, some Errno.EINVAL) :=
  ⟨by decide, (roundup_above_int31 2147483649 (by decide)).2.1 (by decide)⟩

/-! ## `sockaddr` on Unix-domain addresses: error and length -/

/-- With a name that fits the path field, `roundup` gets `n + 3` and cannot fail. -/
theorem roundup_unix (n : Nat) (hn : n ≤ 108) :
    roundup ((2 + n + 1) % 4294967296) = (4 * ((n + 6) / 4), none) := by
  have hw : (2 + n + 1) % 4294967296 = n + 3 := by omega
  rw [hw]
  by_cases h4 : (n + 3) % 4 = 0
  · rw [roundup_aligned _ h4]
    have : n + 3 = 4 * ((n + 6) / 4) := by omega
    rw [← this]
  · rw [roundup_round _ h4 (by omega)]

/-- The result of `sockaddr` for a name that fits the path field. -/
theorem sockaddr_unix_fits (o : ByteOrder) (name : List Nat) (hn : name.length ≤ 108) :
    sockaddr o (some (Sockaddr.Unix name)) =
      (some (rawUnix o name), 4 * ((name.length + 6) / 4), none) := by
  have hgt : ¬ name.length > lenPath := by simp only [lenPath]; omega
  simp only [sockaddr, hgt, if_false, roundup_unix name.length hn, rawUnix]

/-- The result of `sockaddr` for a name longer than the path field. -/
theorem sockaddr_unix_long (o : ByteOrder) (name : List Nat) (hn : 108 < name.length) :
    sockaddr o (some (Sockaddr.Unix name)) = (none, 0, some Errno.EINVAL) := by
  have hgt : name.length > lenPath := by simp only [lenPath]; omega
  simp only [sockaddr, hgt, if_true]

/-- C4: `sockaddr` on a Unix-domain address succeeds exactly when the name has at
most 108 bytes (the capacity of the path field); a name of exactly 108 bytes
succeeds with a non-null region, and a name of 109 bytes or more fails with
`EINVAL`, a null region and length 0. -/
theorem sockaddr_unix_length_boundary (o : ByteOrder) (name : List Nat) :
    ((sockaddr o (some (Sockaddr.Unix name))).2.2 = none ↔ name.length ≤ lenPath) ∧
    (name.length = 108 →
      (sockaddr o (some (Sockaddr.Unix name))).2.2 = none ∧
      (sockaddr o (some (Sockaddr.Unix name))).1 ≠ none) ∧
    (109 ≤ name.length →
      sockaddr o (some (Sockaddr.Unix name)) = (none, 0, some Errno.EINVAL)) := by
  refine ⟨?_, ?_, ?_⟩
  · by_cases hn : name.length ≤ 108
    · simp [sockaddr_unix_fits o name hn, lenPath, hn]
    · simp [sockaddr_unix_long o name (by omega), lenPath, hn]
  · intro hn
    simp [sockaddr_unix_fits o name (by omega)]
  · intro hn
    exact sockaddr_unix_long o name (by omega)

/-- The boundary applied to names of 108 and of 109 bytes. -/
theorem sockaddr_unix_length_boundary_witness :
    (sockaddr ByteOrder.littleEndian (some (Sockaddr.Unix (List.replicate 108 97)))).2.2 = none ∧
    sockaddr ByteOrder.littleEndian (some (Sockaddr.Unix (List.replicate 109 97))) =
      (none, 0, some Errno.EINVAL) :=
  ⟨((sockaddr_unix_length_boundary ByteOrder.littleEndian (List.replicate 108 97)).2.1
      (by simp)).1,
    (sockaddr_unix_length_boundary ByteOrder.littleEndian (List.replicate 109 97)).2.2
      (by simp)⟩

/-- C5: for a Unix-domain name of `n ≤ 108` bytes, `roundup` is called on
`2 + n + 1` and does not fail, and the length `sockaddr` returns is its result:
the least multiple of 4 that is at least `n + 3`. -/
theorem sockaddr_unix_valid_length (o : ByteOrder) (name : List Nat)
    (hn : name.length ≤ 108) :
    (roundup ((2 + name.length + 1) % 4294967296)).2 = none ∧
    (sockaddr o (some (Sockaddr.Unix name))).2.1 =
      (roundup ((2 + name.length + 1) % 4294967296)).1 ∧
    (sockaddr o (some (Sockaddr.Unix name))).2.1 % 4 = 0 ∧
    name.length + 3 ≤ (sockaddr o (some (Sockaddr.Unix name))).2.1 ∧
    (∀ m : Nat, m % 4 = 0 → name.length + 3 ≤ m →
      (sockaddr o (some (Sockaddr.Unix name))).2.1 ≤ m) := by
  rw [sockaddr_unix_fits o name hn, roundup_unix name.length hn]
  refine ⟨rfl, rfl, ?_, ?_, ?_⟩
  · show 4 * ((name.length + 6) / 4) % 4 = 0; omega
  · show name.length + 3 ≤ 4 * ((name.length + 6) / 4); omega
  · intro m hm hle
    show 4 * ((name.length + 6) / 4) ≤ m; omega

/-- The valid length for the four-byte name `"\x00foo"` is 8. -/
theorem sockaddr_unix_valid_length_witness :
    [0, 102, 111, 111].length ≤ 108 ∧
      (sockaddr ByteOrder.bigEndian (some (Sockaddr.Unix [0, 102, 111, 111]))).2.1 % 4 = 0 ∧
      [0, 102, 111, 111].length + 3 ≤
        (sockaddr ByteOrder.bigEndian (some (Sockaddr.Unix [0, 102, 111, 111]))).2.1 :=
  ⟨by decide,
    (sockaddr_unix_valid_length ByteOrder.bigEndian [0, 102, 111, 111] (by decide)).2.2.1,
    (sockaddr_unix_valid_length ByteOrder.bigEndian [0, 102, 111, 111] (by decide)).2.2.2.1⟩

/-! ## Ports, IP regions and descriptors -/

theorem byte_cast (x : Int) : ((byte x : Nat) : Int) = x % 256 := by
  unfold byte
  rw [Int.toNat_of_nonneg (Int.emod_nonneg _ (by norm_num))]

/-- The port written by `sockaddr` and read back by `anyToSockaddr`. -/
theorem port_roundtrip (p : Int) :
    ((byte (p >>> (8 : Nat)) : Nat) : Int) <<< (8 : Int) + ((byte p : Nat) : Int) = p % 65536 := by
  rw [byte_cast, byte_cast, Int.shiftRight_eq_div_pow]
  have := Int.shiftLeft_eq_mul_pow (p / ((2 ^ 8 : Nat) : Int) % 256) 8
  norm_num at this ⊢
  rw [this]
  omega

theorem range_map_getD_of_length (l : List Nat) (n : Nat) (h : l.length = n) :
    (List.range n).map (fun i => l.getD i 0) = l := by
  subst h
  have := map_range_getD id l
  simpa using this

theorem inet4_encode_decode (o : ByteOrder) (p : Int) (a : List Nat) :
    ∃ raw : List Nat,
      sockaddr o (some (Sockaddr.Inet4 p a)) = (some raw, 16, none) ∧
      anyToSockaddr o raw =
        (raw, some (Sockaddr.Inet4 (p % 65536) ((List.range 4).map (fun i => a.getD i 0))), none) := by
  refine ⟨_, rfl, ?_⟩
  cases o <;>
  simp [anyToSockaddr, forLoop, putUint16, getUint16, load, offFamily, offPort, offAddr4, AF_INET,
      AF_UNIX, AF_INET6, SizeofSockaddrInet4, List.range, List.range.loop, List.replicate,
      port_roundtrip]

theorem inet6_encode_decode (o : ByteOrder) (p : Int) (zone : Nat) (a : List Nat) :
    ∃ raw : List Nat,
      sockaddr o (some (Sockaddr.Inet6 p zone a)) = (some raw, 28, none) ∧
      anyToSockaddr o raw =
        (raw, some (Sockaddr.Inet6 (p % 65536) (zone % 4294967296)
          ((List.range 16).map (fun i => a.getD i 0))), none) := by
  refine ⟨_, rfl, ?_⟩
  cases o <;>
  simp [anyToSockaddr, forLoop, putUint16, getUint16, putUint32, getUint32, load, offFamily,
      offPort, offAddr6, offScopeId, AF_INET,
      AF_UNIX, AF_INET6, SizeofSockaddrInet6, List.range, List.range.loop, List.replicate,
      port_roundtrip] <;> omega

theorem bytes2iovec_eq_forLoop (bs : List Slice) :
    bytes2iovec bs =
      forLoop bs.length (iovecStep bs) (List.replicate bs.length (Iovec.mk Pointer.nil 0)) := rfl

theorem getElem?_iovecStep (bs : List Slice) (i : Nat) (hi : i < bs.length) (l : List Iovec) (j : Nat) :
    (iovecStep bs i l)[j]? =
      if i = j then (l[j]?).map (fun _ => iovecOf bs[i]) else l[j]? := by
  have hb : bs.getD i (Slice.mk 0 0 []) = bs[i] := List.getD_eq_getElem _ _ hi
  unfold iovecStep
  simp only [hb]
  by_cases hij : i = j
  · subst hij
    split <;> rename_i hlen <;>
      simp [List.getElem?_modify, iovecOf, Iovec.SetLen, hlen] <;>
      cases l[i]? <;> simp
  · split <;> simp [List.getElem?_modify, hij]

theorem getElem?_iovecLoop (bs : List Slice) (init : List Iovec) :
    ∀ n : Nat, n ≤ bs.length → ∀ j : Nat,
      (forLoop n (iovecStep bs) init)[j]? =
        if j < n then (init[j]?).map (fun _ => iovecOf (bs.getD j (Slice.mk 0 0 []))) else init[j]?
  | 0, _, j => by simp [forLoop_zero]
  | n + 1, h, j => by
      rw [forLoop_succ, getElem?_iovecStep bs n (by omega), getElem?_iovecLoop bs init n (by omega)]
      by_cases hnj : n = j
      · subst hnj
        have hb : bs.getD n (Slice.mk 0 0 []) = bs[n] := List.getD_eq_getElem _ _ (by omega)
        rw [hb]; simp
      · have : (j < n + 1) = (j < n) := by
          apply propext; constructor <;> intro h' <;> omega
        simp [hnj, this]

/-- The result of `bytes2iovec`: one descriptor per buffer, in order. -/
theorem bytes2iovec_eq_map (bs : List Slice) : bytes2iovec bs = bs.map iovecOf := by
  rw [bytes2iovec_eq_forLoop]
  apply List.ext_getElem?
  intro j
  rw [getElem?_iovecLoop bs _ bs.length (Nat.le_refl _) j]
  by_cases hj : j < bs.length
  · have hb : bs.getD j (Slice.mk 0 0 []) = bs[j] := List.getD_eq_getElem _ _ hj
    simp [hj, hb, List.getElem?_replicate]
  · have h1 : bs.length ≤ j := by omega
    simp [hj, List.getElem?_replicate, h1, List.getElem?_eq_none h1]

/-! ## Round trips -/

/-- C3: a Unix-domain name made of a NUL byte followed by a NUL-free string `s`,
`1 + |s| ≤ 108`, is encoded by `sockaddr` without error, and `anyToSockaddr` on the
produced region returns the name `@` followed by `s`. -/
theorem abstract_socket_roundtrip (o : ByteOrder) (s : List Nat)
    (hb : allBytes s = true) (hz : 0 ∉ s) (hl : 1 + s.length ≤ 108) :
    ∃ raw : List Nat,
      sockaddr o (some (Sockaddr.Unix (0 :: s))) =
        (some raw, 4 * ((s.length + 7) / 4), none) ∧
      (anyToSockaddr o raw).2 = (some (Sockaddr.Unix (64 :: s)), none) := by
  have hn : (0 :: s).length ≤ 108 := by simp; omega
  refine ⟨rawUnix o (0 :: s), by rw [sockaddr_unix_fits o _ hn]; simp, ?_⟩
  have hraw := rawUnix_eq o (0 :: s) hn
  rw [List.map_cons, map_mod_of_allBytes s hb] at hraw
  have hf : getUint16 o (rawUnix o (0 :: s)) offFamily = AF_UNIX := by
    rw [hraw]; exact getUint16_zero o AF_UNIX (by decide) _
  rw [anyToSockaddr_unix o _ hf]
  have hu : unixRegion (rawUnix o (0 :: s)) =
      uint16Bytes o AF_UNIX ++ (64 :: s ++ List.replicate (108 - (0 :: s).length) 0) := by
    rw [hraw]
    cases o <;> simp [unixRegion, uint16Bytes, load, offPath, int8, int8Bits]
  have hd : (unixRegion (rawUnix o (0 :: s))).drop offPath =
      (64 :: s) ++ List.replicate (108 - (0 :: s).length) 0 := by
    rw [hu]; cases o <;> rfl
  have ht : ((64 :: s) ++ List.replicate (108 - (0 :: s).length) 0).take lenPath =
      (64 :: s) ++ List.replicate (108 - (0 :: s).length) 0 := by
    apply List.take_of_length_le
    simp [lenPath]; omega
  rw [hd, ht, takeWhile_nonNul_append_zeros]
  intro b hbm
  rcases List.mem_cons.1 hbm with rfl | hbs
  · decide
  · have hlt : b < 256 := by
      have := List.all_eq_true.1 hb b hbs
      simpa [isByte] using this
    exact nonNul_of_byte b hlt (fun h => hz (h ▸ hbs))


/-- The abstract-socket round trip applied to the name NUL, `f`, `o`, `o`. -/
theorem abstract_socket_roundtrip_witness :
    allBytes [102, 111, 111] = true ∧ 0 ∉ [102, 111, 111] ∧ 1 + [102, 111, 111].length ≤ 108 ∧
      ∃ raw : List Nat,
        sockaddr ByteOrder.littleEndian (some (Sockaddr.Unix (0 :: [102, 111, 111]))) =
          (some raw, 4 * (([102, 111, 111].length + 7) / 4), none) ∧
        (anyToSockaddr ByteOrder.littleEndian raw).2 =
          (some (Sockaddr.Unix (64 :: [102, 111, 111])), none) :=
  ⟨by decide, by decide, by decide,
    abstract_socket_roundtrip ByteOrder.littleEndian [102, 111, 111] (by decide) (by decide)
      (by decide)⟩

/-- C1: for every IPv4 address (port in `0..65535`, four octets) and every IPv6
address (port in `0..65535`, sixteen octets, 32-bit zone id), `sockaddr` returns a
region and no error, and `anyToSockaddr` on that region returns, without error, an
address equal to the input: same family, port, octets and (IPv6) zone id. -/
theorem ip_roundtrip (o : ByteOrder) (sa : Sockaddr) (h : validIP sa = true) :
    ∃ raw : List Nat,
      (sockaddr o (some sa)).1 = some raw ∧ (sockaddr o (some sa)).2.2 = none ∧
      (anyToSockaddr o raw).2 = (some sa, none) := by
  cases sa with
  | Inet4 p a =>
    simp only [validIP, validInet4, Bool.and_eq_true, decide_eq_true_eq] at h
    obtain ⟨⟨⟨hp0, hp1⟩, hlen⟩, -⟩ := h
    obtain ⟨raw, henc, hdec⟩ := inet4_encode_decode o p a
    refine ⟨raw, by rw [henc], by rw [henc], ?_⟩
    rw [hdec, range_map_getD_of_length a 4 hlen, Int.emod_eq_of_lt hp0 (by omega)]
  | Inet6 p zone a =>
    simp only [validIP, validInet6, Bool.and_eq_true, decide_eq_true_eq] at h
    obtain ⟨⟨⟨⟨hp0, hp1⟩, hz⟩, hlen⟩, -⟩ := h
    obtain ⟨raw, henc, hdec⟩ := inet6_encode_decode o p zone a
    refine ⟨raw, by rw [henc], by rw [henc], ?_⟩
    rw [hdec, range_map_getD_of_length a 16 hlen, Int.emod_eq_of_lt hp0 (by omega),
      Nat.mod_eq_of_lt hz]
  | Unix name => simp [validIP] at h
  | Other => simp [validIP] at h

/-- The round trip applied to the IPv6 address `[0, 1, ..., 15]`, port 8080, zone 7. -/
theorem ip_roundtrip_witness :
    validIP (Sockaddr.Inet6 8080 7 (List.range 16)) = true ∧
      ∃ raw : List Nat,
        (sockaddr ByteOrder.bigEndian (some (Sockaddr.Inet6 8080 7 (List.range 16)))).1 =
          some raw ∧
        (sockaddr ByteOrder.bigEndian (some (Sockaddr.Inet6 8080 7 (List.range 16)))).2.2 =
          none ∧
        (anyToSockaddr ByteOrder.bigEndian raw).2 =
          (some (Sockaddr.Inet6 8080 7 (List.range 16)), none) :=
  ⟨by decide, ip_roundtrip ByteOrder.bigEndian (Sockaddr.Inet6 8080 7 (List.range 16)) (by decide)⟩

/-! ## Port byte order -/

/-- C2: for a port `p` in `0..65535`, in the region `sockaddr` produces for an IPv4
or an IPv6 address the two bytes right after the 2-byte family tag are `p / 256`
and `p mod 256`, in that order, whatever the host byte order. -/
theorem sockaddr_port_big_endian (o : ByteOrder) (p : Int) (hp0 : 0 ≤ p) (hp1 : p ≤ 65535)
    (a4 : List Nat) (zone : Nat) (a6 : List Nat) :
    (∃ raw : List Nat, (sockaddr o (some (Sockaddr.Inet4 p a4))).1 = some raw ∧
      (raw.drop 2).take 2 = [(p / 256).toNat, (p % 256).toNat]) ∧
    (∃ raw : List Nat, (sockaddr o (some (Sockaddr.Inet6 p zone a6))).1 = some raw ∧
      (raw.drop 2).take 2 = [(p / 256).toNat, (p % 256).toNat]) := by
  have hhi : byte (p >>> (8 : Nat)) = (p / 256).toNat := by
    unfold byte
    rw [Int.shiftRight_eq_div_pow]
    have h : p / ((2 ^ 8 : Nat) : Int) % 256 = p / 256 := by
      norm_num
      omega
    rw [h]
  have hlo : byte p = (p % 256).toNat := rfl
  constructor
  · refine ⟨_, rfl, ?_⟩
    rw [hhi, hlo]
    cases o <;>
    simp [forLoop, putUint16, offFamily, offPort, offAddr4, SizeofSockaddrInet4, List.range,
      List.range.loop, List.replicate]
  · refine ⟨_, rfl, ?_⟩
    rw [hhi, hlo]
    cases o <;>
    simp [forLoop, putUint16, putUint32, offFamily, offPort, offAddr6, offScopeId,
      SizeofSockaddrInet6, List.range, List.range.loop, List.replicate]

/-- Port `0x1234` is stored as the bytes `0x12`, `0x34` on a little-endian host. -/
theorem sockaddr_port_big_endian_witness :
    (0 : Int) ≤ 4660 ∧ (4660 : Int) ≤ 65535 ∧
      (∃ raw : List Nat,
        (sockaddr ByteOrder.littleEndian (some (Sockaddr.Inet4 4660 [127, 0, 0, 1]))).1 =
          some raw ∧
        (raw.drop 2).take 2 = [((4660 : Int) / 256).toNat, ((4660 : Int) % 256).toNat]) ∧
      [((4660 : Int) / 256).toNat, ((4660 : Int) % 256).toNat] = [18, 52] :=
  ⟨by decide, by decide,
    (sockaddr_port_big_endian ByteOrder.littleEndian 4660 (by decide) (by decide)
      [127, 0, 0, 1] 0 []).1,
    by decide⟩

/-! ## Family dispatch of `anyToSockaddr` -/

/-- C8: `anyToSockaddr` fails exactly when the family of the region is none of
`AF_UNIX`, `AF_INET`, `AF_INET6`; it then returns no address and `EAFNOSUPPORT`.
For each of the three families it returns, without error, an address of the
matching variant, whatever the other bytes of the region are. -/
theorem anyToSockaddr_family_dispatch (o : ByteOrder) (rsa : List Nat) :
    ((anyToSockaddr o rsa).2.2 ≠ none ↔
      (getUint16 o rsa offFamily ≠ AF_UNIX ∧ getUint16 o rsa offFamily ≠ AF_INET ∧
        getUint16 o rsa offFamily ≠ AF_INET6)) ∧
    ((getUint16 o rsa offFamily ≠ AF_UNIX ∧ getUint16 o rsa offFamily ≠ AF_INET ∧
        getUint16 o rsa offFamily ≠ AF_INET6) →
      (anyToSockaddr o rsa).2 = (none, some Errno.EAFNOSUPPORT)) ∧
    (getUint16 o rsa offFamily = AF_UNIX →
      ∃ name : List Nat, (anyToSockaddr o rsa).2 = (some (Sockaddr.Unix name), none)) ∧
    (getUint16 o rsa offFamily = AF_INET →
      ∃ (port : Int) (a : List Nat),
        (anyToSockaddr o rsa).2 = (some (Sockaddr.Inet4 port a), none)) ∧
    (getUint16 o rsa offFamily = AF_INET6 →
      ∃ (port : Int) (zone : Nat) (a : List Nat),
        (anyToSockaddr o rsa).2 = (some (Sockaddr.Inet6 port zone a), none)) := by
  have n21 : ¬ (AF_INET = AF_UNIX) := by decide
  have n101 : ¬ (AF_INET6 = AF_UNIX) := by decide
  have n102 : ¬ (AF_INET6 = AF_INET) := by decide
  refine ⟨?_, ?_, ?_, ?_, ?_⟩
  · by_cases h1 : getUint16 o rsa offFamily = AF_UNIX
    · simp [anyToSockaddr, h1]
    · by_cases h2 : getUint16 o rsa offFamily = AF_INET
      · simp [anyToSockaddr, h2, n21]
      · by_cases h3 : getUint16 o rsa offFamily = AF_INET6
        · simp [anyToSockaddr, h3, n101, n102]
        · simp [anyToSockaddr, h1, h2, h3]
  · rintro ⟨h1, h2, h3⟩
    simp [anyToSockaddr, h1, h2, h3]
  · intro h1
    exact ⟨_, by rw [anyToSockaddr_unix o rsa h1]⟩
  · intro h2
    exact ⟨_, _, by rw [anyToSockaddr_inet4 o rsa h2]⟩
  · intro h3
    exact ⟨_, _, _, by rw [anyToSockaddr_inet6 o rsa h3]⟩

/-- A region whose family is 99 is rejected with `EAFNOSUPPORT`. -/
theorem anyToSockaddr_family_dispatch_witness :
    getUint16 ByteOrder.littleEndian (99 :: List.replicate 111 0) offFamily = 99 ∧
      (anyToSockaddr ByteOrder.littleEndian (99 :: List.replicate 111 0)).2 =
        (none, some Errno.EAFNOSUPPORT) :=
  ⟨by decide,
    (anyToSockaddr_family_dispatch ByteOrder.littleEndian (99 :: List.replicate 111 0)).2.1
      (by decide)⟩

/-! ## `bytes2iovec` -/

/-- C9: `bytes2iovec` returns one descriptor per buffer, in order: the result has
`len(bs)` elements and, at every index, the descriptor's `Len` is the byte length of
the buffer at that index.  The length of a buffer is a Go `int`, hence below `2^63`. -/
theorem bytes2iovec_lengths (bs : List Slice)
    (hlen : ∀ b ∈ bs, b.data.length < 9223372036854775808) :
    (bytes2iovec bs).length = bs.length ∧
    (∀ i : Nat, ((bytes2iovec bs)[i]?).map Iovec.Len = (bs[i]?).map (fun b => b.data.length)) ∧
    (bytes2iovec bs).map Iovec.Len = bs.map (fun b => b.data.length) := by
  have hmap : (bytes2iovec bs).map Iovec.Len = bs.map (fun b => b.data.length) := by
    rw [bytes2iovec_eq_map, List.map_map]
    apply List.map_congr_left
    intro b hb
    have := hlen b hb
    show b.data.length % 18446744073709551616 = b.data.length
    omega
  refine ⟨by rw [bytes2iovec_eq_map, List.length_map], ?_, hmap⟩
  intro i
  rw [← List.getElem?_map, ← List.getElem?_map, hmap]

/-- The buffers `"ab"`, `""`, `"cde"` give three descriptors of lengths 2, 0 and 3. -/
theorem bytes2iovec_lengths_witness :
    (∀ b ∈ [Slice.mk 1 0 [97, 98], Slice.mk 2 0 [], Slice.mk 3 0 [99, 100, 101]],
        b.data.length < 9223372036854775808) ∧
      (bytes2iovec [Slice.mk 1 0 [97, 98], Slice.mk 2 0 [], Slice.mk 3 0 [99, 100, 101]]).length =
        [Slice.mk 1 0 [97, 98], Slice.mk 2 0 [], Slice.mk 3 0 [99, 100, 101]].length ∧
      (bytes2iovec [Slice.mk 1 0 [97, 98], Slice.mk 2 0 [], Slice.mk 3 0 [99, 100, 101]]).map
          Iovec.Len = [2, 0, 3] :=
  ⟨by decide,
    (bytes2iovec_lengths [Slice.mk 1 0 [97, 98], Slice.mk 2 0 [], Slice.mk 3 0 [99, 100, 101]]
      (by decide)).1,
    (bytes2iovec_lengths [Slice.mk 1 0 [97, 98], Slice.mk 2 0 [], Slice.mk 3 0 [99, 100, 101]]
      (by decide)).2.2⟩

/-- C10: at every index `i` of the input, the descriptor `bytes2iovec` returns at `i`
has as base the address of the first byte of buffer `i` when that buffer is not
empty; when it is empty the base is the address of the package-level variable
`zero`, which is not the nil pointer and does not depend on the buffer or the call,
and the length is 0. -/
theorem bytes2iovec_bases (bs : List Slice) (i : Nat) (b : Slice) (hb : bs[i]? = some b) :
    ∃ iov : Iovec, (bytes2iovec bs)[i]? = some iov ∧
      (b.data ≠ [] → iov.Base = Pointer.elem b.array b.first) ∧
      (b.data = [] → iov.Base = Pointer.zero ∧ iov.Base ≠ Pointer.nil ∧ iov.Len = 0) := by
  refine ⟨iovecOf b, by rw [bytes2iovec_eq_map, List.getElem?_map, hb]; rfl, ?_, ?_⟩
  · intro hne
    have : b.data.length > 0 := List.length_pos.2 hne
    simp [iovecOf, this]
  · intro he
    simp [iovecOf, he]

/-- The empty middle buffer of `"ab"`, `""`, `"cde"` gets the address of `zero`. -/
theorem bytes2iovec_bases_witness :
    [Slice.mk 1 0 [97, 98], Slice.mk 2 0 [], Slice.mk 3 0 [99, 100, 101]][1]? =
        some (Slice.mk 2 0 []) ∧
      ∃ iov : Iovec,
        (bytes2iovec [Slice.mk 1 0 [97, 98], Slice.mk 2 0 [], Slice.mk 3 0 [99, 100, 101]])[1]? =
          some iov ∧
        ((Slice.mk 2 0 []).data ≠ [] →
          iov.Base = Pointer.elem (Slice.mk 2 0 []).array (Slice.mk 2 0 []).first) ∧
        ((Slice.mk 2 0 []).data = [] →
          iov.Base = Pointer.zero ∧ iov.Base ≠ Pointer.nil ∧ iov.Len = 0) :=
  ⟨rfl,
    bytes2iovec_bases [Slice.mk 1 0 [97, 98], Slice.mk 2 0 [], Slice.mk 3 0 [99, 100, 101]] 1
      (Slice.mk 2 0 []) rfl⟩

/-! ## Further claims about `sockaddr` -/

/-- C15: `sockaddr` applied to the nil address returns the null pointer, length 0 and
no error. -/
theorem sockaddr_nil (o : ByteOrder) : sockaddr o none = (none, 0, none) := rfl

/-- C16 as stated fails: for a name of 106 bytes `sockaddr` succeeds and returns the
length 112, which exceeds the 110 bytes of `RawSockaddrUnix`. -/
theorem sockaddr_unix_106_exceeds :
    (sockaddr ByteOrder.littleEndian (some (Sockaddr.Unix (List.replicate 106 97)))).2.2 = none ∧
    (sockaddr ByteOrder.littleEndian (some (Sockaddr.Unix (List.replicate 106 97)))).2.1 = 112 ∧
    ¬ ((sockaddr ByteOrder.littleEndian (some (Sockaddr.Unix (List.replicate 106 97)))).2.1 ≤
        SizeofSockaddrUnix) := by
  rw [sockaddr_unix_fits _ _ (by simp)]
  simp [SizeofSockaddrUnix]

/-- C16, amended: for every Unix-domain name `sockaddr` accepts (at most 108 bytes) the
returned length is at most 112, the structure size rounded up to a multiple of 4, and
it stays within the 110 bytes of `RawSockaddrUnix` exactly when the name has at most
105 bytes. -/
theorem sockaddr_unix_length_bound (o : ByteOrder) (name : List Nat) (hn : name.length ≤ 108) :
    (sockaddr o (some (Sockaddr.Unix name))).2.1 ≤ 112 ∧
    ((sockaddr o (some (Sockaddr.Unix name))).2.1 ≤ SizeofSockaddrUnix ↔ name.length ≤ 105) := by
  rw [sockaddr_unix_fits o name hn]
  show 4 * ((name.length + 6) / 4) ≤ 112 ∧ (4 * ((name.length + 6) / 4) ≤ 110 ↔ name.length ≤ 105)
  omega

/-- C17: whatever the integer port `p` of an IPv4 or IPv6 address, `sockaddr` returns a
region and no error, and `anyToSockaddr` on that region returns the same address
with the port `p mod 65536` (the non-negative residue). -/
theorem port_range_roundtrip (o : ByteOrder) (p : Int) (a4 : List Nat) (h4 : a4.length = 4)
    (zone : Nat) (hz : zone < 4294967296) (a6 : List Nat) (h6 : a6.length = 16) :
    (∃ raw : List Nat,
      (sockaddr o (some (Sockaddr.Inet4 p a4))).1 = some raw ∧
      (sockaddr o (some (Sockaddr.Inet4 p a4))).2.2 = none ∧
      (anyToSockaddr o raw).2 = (some (Sockaddr.Inet4 (p % 65536) a4), none)) ∧
    (∃ raw : List Nat,
      (sockaddr o (some (Sockaddr.Inet6 p zone a6))).1 = some raw ∧
      (sockaddr o (some (Sockaddr.Inet6 p zone a6))).2.2 = none ∧
      (anyToSockaddr o raw).2 = (some (Sockaddr.Inet6 (p % 65536) zone a6), none)) := by
  constructor
  · obtain ⟨raw, henc, hdec⟩ := inet4_encode_decode o p a4
    refine ⟨raw, by rw [henc], by rw [henc], ?_⟩
    rw [hdec, range_map_getD_of_length a4 4 h4]
  · obtain ⟨raw, henc, hdec⟩ := inet6_encode_decode o p zone a6
    refine ⟨raw, by rw [henc], by rw [henc], ?_⟩
    rw [hdec, range_map_getD_of_length a6 16 h6, Nat.mod_eq_of_lt hz]

/-! ## The write of `anyToSockaddr` to its region -/

theorem load_set_ne (mem : List Nat) (i j v : Nat) (h : i ≠ j) :
    load (mem.set i v) j = load mem j := by
  simp [load, List.getElem?_set_ne h]

theorem load_set_eq (mem : List Nat) (i v : Nat) (h : i < mem.length) :
    load (mem.set i v) i = v := by
  simp [load, List.getElem?_set_self, h]

theorem load_unixRegion_ne (rsa : List Nat) (j : Nat) (h : j ≠ offPath) :
    load (unixRegion rsa) j = load rsa j := by
  unfold unixRegion
  split
  · exact load_set_ne _ _ _ _ (Ne.symm h)
  · rfl

theorem length_unixRegion (rsa : List Nat) : (unixRegion rsa).length = rsa.length := by
  unfold unixRegion
  split <;> simp

theorem getUint16_unixRegion (o : ByteOrder) (rsa : List Nat) :
    getUint16 o (unixRegion rsa) offFamily = getUint16 o rsa offFamily := by
  cases o <;>
  simp only [getUint16, offFamily, load_unixRegion_ne rsa 0 (by decide),
    load_unixRegion_ne rsa (0 + 1) (by decide)]

/-- After the rewrite the first path byte is not NUL. -/
theorem nonNul_load_unixRegion (rsa : List Nat) (h : offPath < rsa.length) :
    nonNul (load (unixRegion rsa) offPath) = true := by
  unfold unixRegion
  split
  · rw [load_set_eq _ _ _ h]; decide
  · rename_i hne
    simpa [nonNul] using hne

theorem unixRegion_of_ne (r : List Nat) (h : ¬ int8 (load r offPath) = 0) :
    unixRegion r = r := by
  unfold unixRegion
  rw [if_neg h]

/-- The rewrite of the first path byte happens at most once. -/
theorem unixRegion_idem (rsa : List Nat) : unixRegion (unixRegion rsa) = unixRegion rsa := by
  by_cases h : offPath < rsa.length
  · have hn := nonNul_load_unixRegion rsa h
    have : ¬ int8 (load (unixRegion rsa) offPath) = 0 := by simpa [nonNul] using hn
    exact unixRegion_of_ne _ this
  · have hs : ∀ v : Nat, rsa.set offPath v = rsa := by
      intro v
      apply List.ext_getElem?
      intro j
      by_cases hj : offPath = j
      · subst hj
        rw [List.getElem?_eq_none (by simp; omega), List.getElem?_eq_none (by omega)]
      · rw [List.getElem?_set_ne hj]
    have h1 : unixRegion rsa = rsa := by
      unfold unixRegion
      split
      · exact hs _
      · rfl
    rw [h1, h1]

/-- The region `anyToSockaddr` leaves behind, by family. -/
theorem anyToSockaddr_region (o : ByteOrder) (rsa : List Nat) :
    (anyToSockaddr o rsa).1 =
      if getUint16 o rsa offFamily = AF_UNIX then unixRegion rsa else rsa := by
  by_cases h1 : getUint16 o rsa offFamily = AF_UNIX
  · rw [anyToSockaddr_unix o rsa h1, if_pos h1]
  · rw [if_neg h1]
    simp only [anyToSockaddr, h1, if_false]
    split
    · rfl
    · split <;> rfl

/-- C19: calling `anyToSockaddr` again on the region the first call left returns the
same address and error as the first call, and leaves that region unchanged. -/
theorem anyToSockaddr_repeat (o : ByteOrder) (rsa : List Nat) :
    (anyToSockaddr o (anyToSockaddr o rsa).1).2 = (anyToSockaddr o rsa).2 ∧
    (anyToSockaddr o (anyToSockaddr o rsa).1).1 = (anyToSockaddr o rsa).1 := by
  by_cases h1 : getUint16 o rsa offFamily = AF_UNIX
  · have h2 : getUint16 o (unixRegion rsa) offFamily = AF_UNIX := by
      rw [getUint16_unixRegion, h1]
    rw [anyToSockaddr_unix o rsa h1]
    simp only
    rw [anyToSockaddr_unix o _ h2, unixRegion_idem]
    exact ⟨rfl, rfl⟩
  · have hr : (anyToSockaddr o rsa).1 = rsa := by
      rw [anyToSockaddr_region, if_neg h1]
    rw [hr]
    exact ⟨rfl, hr⟩


theorem load_lt_of_allBytes (mem : List Nat) (hb : allBytes mem = true) (i : Nat) :
    load mem i < 256 := by
  by_cases h : i < mem.length
  · rw [load_of_lt mem i h]
    have := List.all_eq_true.1 hb mem[i] (List.getElem_mem h)
    simpa [isByte] using this
  · rw [load_of_le mem i (by omega)]; decide

/-- C14: `anyToSockaddr` keeps the size of the region and every byte other than the
first path byte; when the family is `AF_UNIX` and the first path byte is NUL, that
byte becomes `@` (64) and the region is otherwise as before; in every other case the
region is left exactly as it was. -/
theorem anyToSockaddr_only_write (o : ByteOrder) (rsa : List Nat)
    (hlen : offPath < rsa.length) (hb : allBytes rsa = true) :
    (anyToSockaddr o rsa).1.length = rsa.length ∧
    (∀ i : Nat, i ≠ offPath → load (anyToSockaddr o rsa).1 i = load rsa i) ∧
    ((getUint16 o rsa offFamily = AF_UNIX ∧ load rsa offPath = 0) →
      (anyToSockaddr o rsa).1 = rsa.set offPath 64 ∧ load (anyToSockaddr o rsa).1 offPath = 64) ∧
    (¬ (getUint16 o rsa offFamily = AF_UNIX ∧ load rsa offPath = 0) →
      (anyToSockaddr o rsa).1 = rsa) := by
  rw [anyToSockaddr_region]
  have hz : int8 (load rsa offPath) = 0 ↔ load rsa offPath = 0 := by
    rw [int8_eq_zero]
    have := load_lt_of_allBytes rsa hb offPath
    omega
  refine ⟨?_, ?_, ?_, ?_⟩
  · split
    · exact length_unixRegion rsa
    · rfl
  · intro i hi
    split
    · exact load_unixRegion_ne rsa i hi
    · rfl
  · rintro ⟨hf, h0⟩
    rw [if_pos hf]
    have hu : unixRegion rsa = rsa.set offPath 64 := by
      unfold unixRegion
      rw [if_pos (hz.2 h0)]
      rfl
    rw [hu]
    exact ⟨rfl, load_set_eq _ _ _ hlen⟩
  · intro hn
    by_cases hf : getUint16 o rsa offFamily = AF_UNIX
    · rw [if_pos hf]
      exact unixRegion_of_ne rsa (fun h => hn ⟨hf, hz.1 h⟩)
    · rw [if_neg hf]

/-- C18: on a region of family `AF_UNIX`, `anyToSockaddr` returns without error a
name of between 1 and 108 bytes, none of which is NUL; the region `sockaddr` produces
for the empty name decodes to the one-byte name `@`. -/
theorem anyToSockaddr_unix_name (o : ByteOrder) (rsa : List Nat)
    (hf : getUint16 o rsa offFamily = AF_UNIX) (hlen : offPath < rsa.length) :
    (∃ name : List Nat,
      (anyToSockaddr o rsa).2 = (some (Sockaddr.Unix name), none) ∧
      1 ≤ name.length ∧ name.length ≤ 108 ∧ 0 ∉ name) ∧
    (∃ raw : List Nat,
      sockaddr o (some (Sockaddr.Unix [])) = (some raw, 4, none) ∧
      (anyToSockaddr o raw).2 = (some (Sockaddr.Unix [64]), none)) := by
  constructor
  · rw [anyToSockaddr_unix o rsa hf]
    refine ⟨_, rfl, ?_, ?_, ?_⟩
    · have hl : offPath < (unixRegion rsa).length := by rw [length_unixRegion]; exact hlen
      have hd : (unixRegion rsa).drop offPath =
          (unixRegion rsa)[offPath] :: (unixRegion rsa).drop (offPath + 1) := by
        rw [List.drop_eq_getElem_cons]
      have hn := nonNul_load_unixRegion rsa hlen
      rw [load_of_lt _ _ hl] at hn
      rw [hd, show lenPath = 107 + 1 from rfl, List.take_succ_cons,
        List.takeWhile_cons_of_pos hn]
      simp
    · calc _ ≤ (((unixRegion rsa).drop offPath).take lenPath).length :=
            (List.takeWhile_sublist _).length_le
        _ ≤ 108 := by simp [List.length_take, lenPath]
    · intro hmem
      have := List.mem_takeWhile_imp hmem
      exact absurd this (by decide)
  · refine ⟨rawUnix o [], sockaddr_unix_fits o [] (by simp), ?_⟩
    cases o <;> decide


theorem takeWhile_append_zeros (q : Nat → Bool) (hq : q 0 = false) (l : List Nat) (k : Nat) :
    (l ++ List.replicate k 0).takeWhile q = l.takeWhile q := by
  induction l with
  | nil =>
    cases k with
    | zero => rfl
    | succ k =>
      rw [List.nil_append, List.replicate_succ, List.takeWhile_cons_of_neg (by simp [hq])]
      rfl
  | cons a t ih =>
    by_cases ha : q a = true
    · rw [List.cons_append, List.takeWhile_cons_of_pos ha, List.takeWhile_cons_of_pos ha, ih]
    · rw [List.cons_append, List.takeWhile_cons_of_neg ha, List.takeWhile_cons_of_neg ha]

theorem takeWhile_nonNul_of_allBytes (l : List Nat) (hb : allBytes l = true) :
    l.takeWhile nonNul = l.takeWhile (fun x => decide (x ≠ 0)) := by
  induction l with
  | nil => rfl
  | cons a t ih =>
    have ha : a < 256 := by
      have := List.all_eq_true.1 hb a (List.mem_cons_self _ _)
      simpa [isByte] using this
    have ht : allBytes t = true := by
      simp [allBytes] at hb ⊢
      exact hb.2
    have hq : nonNul a = decide (a ≠ 0) := by
      simp only [nonNul, int8_eq_zero, ne_eq, decide_eq_decide]
      omega
    simp only [List.takeWhile_cons, hq, ih ht]

/-- C13: for a Unix-domain name of at most 108 bytes whose first byte is not NUL,
`sockaddr` succeeds and `anyToSockaddr` on the produced region returns the part of
the name before its first NUL byte, which is the whole name when it has no NUL. -/
theorem unix_path_cut_at_nul (o : ByteOrder) (b : Nat) (t : List Nat) (hb0 : b ≠ 0)
    (hb : allBytes (b :: t) = true) (hl : (b :: t).length ≤ 108) :
    ∃ raw : List Nat,
      (sockaddr o (some (Sockaddr.Unix (b :: t)))).1 = some raw ∧
      (sockaddr o (some (Sockaddr.Unix (b :: t)))).2.2 = none ∧
      (anyToSockaddr o raw).2 =
        (some (Sockaddr.Unix ((b :: t).takeWhile (fun x => decide (x ≠ 0)))), none) ∧
      (0 ∉ b :: t → (anyToSockaddr o raw).2 = (some (Sockaddr.Unix (b :: t)), none)) := by
  have hfit := sockaddr_unix_fits o (b :: t) hl
  have hraw := rawUnix_eq o (b :: t) hl
  rw [map_mod_of_allBytes _ hb] at hraw
  have hf : getUint16 o (rawUnix o (b :: t)) offFamily = AF_UNIX := by
    rw [hraw]; exact getUint16_zero o AF_UNIX (by decide) _
  have hb256 : b < 256 := by
    have := List.all_eq_true.1 hb b (List.mem_cons_self _ _)
    simpa [isByte] using this
  have hload : load (rawUnix o (b :: t)) offPath = b := by
    rw [hraw]; cases o <;> rfl
  have hu : unixRegion (rawUnix o (b :: t)) = rawUnix o (b :: t) := by
    apply unixRegion_of_ne
    rw [hload, int8_eq_zero]
    omega
  have hd : (rawUnix o (b :: t)).drop offPath =
      (b :: t) ++ List.replicate (108 - (b :: t).length) 0 := by
    rw [hraw]; cases o <;> rfl
  have ht : ((b :: t) ++ List.replicate (108 - (b :: t).length) 0).take lenPath =
      (b :: t) ++ List.replicate (108 - (b :: t).length) 0 := by
    apply List.take_of_length_le
    simp only [List.length_append, List.length_replicate, lenPath]
    omega
  have hdec : (anyToSockaddr o (rawUnix o (b :: t))).2 =
      (some (Sockaddr.Unix ((b :: t).takeWhile (fun x => decide (x ≠ 0)))), none) := by
    rw [anyToSockaddr_unix o _ hf, hu, hd, ht, takeWhile_append_zeros nonNul (by decide),
      takeWhile_nonNul_of_allBytes _ hb]
  refine ⟨rawUnix o (b :: t), by rw [hfit], by rw [hfit], hdec, ?_⟩
  intro hz
  rw [hdec]
  have hall : (b :: t).takeWhile (fun x => decide (x ≠ 0)) = b :: t := by
    rw [List.takeWhile_eq_self_iff]
    intro x hx
    simp only [ne_eq, decide_eq_true_eq]
    intro h0
    exact hz (h0 ▸ hx)
  rw [hall]


/-- The raw structure `sockaddr` fills for an IPv4 address, field by field. -/
theorem sockaddr_inet4_region (o : ByteOrder) (p : Int) (a : List Nat) :
    sockaddr o (some (Sockaddr.Inet4 p a)) =
      (some (uint16Bytes o AF_INET ++ ([byte (p >>> (8 : Nat)), byte p] ++
        ((List.range 4).map (fun i => a.getD i 0) ++ List.replicate 8 0))), 16, none) := by
  cases o <;> rfl

/-- The raw structure `sockaddr` fills for an IPv6 address, field by field. -/
theorem sockaddr_inet6_region (o : ByteOrder) (p : Int) (zone : Nat) (a : List Nat) :
    sockaddr o (some (Sockaddr.Inet6 p zone a)) =
      (some (uint16Bytes o AF_INET6 ++ ([byte (p >>> (8 : Nat)), byte p] ++
        (List.replicate 4 0 ++ ((List.range 16).map (fun i => a.getD i 0) ++
          putUint32 o [0, 0, 0, 0] 0 zone)))), 28, none) := by
  cases o <;>
  simp [sockaddr, forLoop, putUint16, putUint32, uint16Bytes, offFamily, offPort, offAddr6,
    offScopeId, AF_INET6, SizeofSockaddrInet6, List.range, List.range.loop, List.replicate]

theorem getUint32_putUint32 (o : ByteOrder) (zone : Nat) (hz : zone < 4294967296) :
    getUint32 o (putUint32 o [0, 0, 0, 0] 0 zone) 0 = zone := by
  cases o <;> simp [getUint32, putUint32, load] <;> omega

/-- C11: for an IPv4 address `sockaddr` returns no error, length 16 and a 16-byte
region with family `AF_INET`, the four octets in order and eight zero padding bytes;
for an IPv6 address it returns no error, length 28 and a 28-byte region with family
`AF_INET6`, the sixteen octets in order, the zone id as scope id and a zero
flowinfo. -/
theorem sockaddr_ip_layout (o : ByteOrder) (p : Int) (a4 : List Nat) (h4 : a4.length = 4)
    (zone : Nat) (hz : zone < 4294967296) (a6 : List Nat) (h6 : a6.length = 16) :
    (∃ raw : List Nat,
      sockaddr o (some (Sockaddr.Inet4 p a4)) = (some raw, SizeofSockaddrInet4, none) ∧
      raw.length = 16 ∧
      getUint16 o raw offFamily = AF_INET ∧
      (raw.drop offAddr4).take 4 = a4 ∧
      (raw.drop offZero4).take 8 = List.replicate 8 0) ∧
    (∃ raw : List Nat,
      sockaddr o (some (Sockaddr.Inet6 p zone a6)) = (some raw, SizeofSockaddrInet6, none) ∧
      raw.length = 28 ∧
      getUint16 o raw offFamily = AF_INET6 ∧
      (raw.drop offAddr6).take 16 = a6 ∧
      getUint32 o raw offScopeId = zone ∧
      getUint32 o raw offFlowinfo = 0 ∧
      (raw.drop offFlowinfo).take 4 = List.replicate 4 0) := by
  constructor
  · refine ⟨_, sockaddr_inet4_region o p a4, ?_, getUint16_zero o AF_INET (by decide) _, ?_, ?_⟩
    · cases o <;> rfl
    · rw [range_map_getD_of_length a4 4 h4]
      obtain ⟨x0, x1, x2, x3, rfl⟩ : ∃ x0 x1 x2 x3, a4 = [x0, x1, x2, x3] := by
        rw [← range_map_getD_of_length a4 4 h4]; exact ⟨_, _, _, _, rfl⟩
      cases o <;> rfl
    · rw [range_map_getD_of_length a4 4 h4]
      obtain ⟨x0, x1, x2, x3, rfl⟩ : ∃ x0 x1 x2 x3, a4 = [x0, x1, x2, x3] := by
        rw [← range_map_getD_of_length a4 4 h4]; exact ⟨_, _, _, _, rfl⟩
      cases o <;> rfl
  · have ha := range_map_getD_of_length a6 16 h6
    have hl : ((List.range 16).map (fun i => a6.getD i 0)).length = 16 := by simp
    have hsplit : ∀ (u q : List Nat), u.length = 2 → q.length = 4 →
        ∀ s : List Nat, s.length = 16 →
        (List.drop offAddr6 (u ++ ([byte (p >>> (8 : Nat)), byte p] ++ (List.replicate 4 0 ++
          (s ++ q))))).take 16 = s ∧
        List.drop offScopeId (u ++ ([byte (p >>> (8 : Nat)), byte p] ++ (List.replicate 4 0 ++
          (s ++ q)))) = q := by
      intro u q hu hq s hs
      obtain ⟨u0, u1, rfl⟩ : ∃ u0 u1, u = [u0, u1] := by
        rcases u with _ | ⟨u0, _ | ⟨u1, _ | ⟨u2, u⟩⟩⟩ <;> simp at hu
        exact ⟨_, _, rfl⟩
      constructor
      · show (s ++ q).take 16 = s
        rw [← hs, List.take_left]
      · show (s ++ q).drop 16 = q
        rw [← hs, List.drop_left]
    refine ⟨_, sockaddr_inet6_region o p zone a6, ?_, getUint16_zero o AF_INET6 (by decide) _,
      ?_, ?_, ?_, ?_⟩
    · cases o <;> simp [uint16Bytes, putUint32]
    · rw [(hsplit _ _ (uint16Bytes_length o _) (by cases o <;> rfl) _ hl).1, ha]
    · have hq : (putUint32 o [0, 0, 0, 0] 0 zone).length = 4 := by cases o <;> rfl
      have hg : ∀ m : List Nat, getUint32 o m offScopeId = getUint32 o (m.drop offScopeId) 0 := by
        intro m
        cases o <;> simp [getUint32, load, offScopeId]
      rw [hg, (hsplit _ _ (uint16Bytes_length o _) hq _ hl).2, getUint32_putUint32 o zone hz]
    · cases o <;> rfl
    · cases o <;> rfl


/-- Consecutive loads are a slice of the region when they lie inside it. -/
theorem map_range_load (mem : List Nat) (off n : Nat) (h : off + n ≤ mem.length) :
    (List.range n).map (fun i => load mem (off + i)) = (mem.drop off).take n := by
  apply List.ext_getElem
  · simp; omega
  · intro i h1 h2
    simp at h1
    simp [load, List.getElem_take, List.getElem?_eq_getElem (show off + i < mem.length by omega)]

theorem decode_port (x y : Nat) :
    ((x : Nat) : Int) <<< (8 : Int) + ((y : Nat) : Int) = ((256 * x + y : Nat) : Int) := by
  have := Int.shiftLeft_eq_mul_pow (x : Int) 8
  norm_num at this ⊢
  rw [this]
  ring

theorem forLoop_octets4 (rsa : List Nat) :
    forLoop 4 (fun i s => s.set i (load rsa (offAddr4 + i))) (List.replicate 4 0) =
      (List.range 4).map (fun i => load rsa (offAddr4 + i)) := by
  simp [forLoop, List.range, List.range.loop, List.replicate]

theorem forLoop_octets16 (rsa : List Nat) :
    forLoop 16 (fun i s => s.set i (load rsa (offAddr6 + i))) (List.replicate 16 0) =
      (List.range 16).map (fun i => load rsa (offAddr6 + i)) := by
  simp [forLoop, List.range, List.range.loop, List.replicate]

/-- C12: on a region of family `AF_INET`, `anyToSockaddr` returns an IPv4 address
whose port is 256 times the first port byte plus the second, hence in `0..65535`, and
whose octets are the four address bytes in order; on a region of family `AF_INET6`
it returns an IPv6 address with the port computed the same way, the sixteen address
bytes as octets and the scope id field as zone id. -/
theorem anyToSockaddr_ip_fields (o : ByteOrder) (rsa : List Nat) (hb : allBytes rsa = true) :
    (getUint16 o rsa offFamily = AF_INET →
      ∃ (port : Int) (a : List Nat),
        (anyToSockaddr o rsa).2 = (some (Sockaddr.Inet4 port a), none) ∧
        port = ((256 * load rsa offPort + load rsa (offPort + 1) : Nat) : Int) ∧
        0 ≤ port ∧ port ≤ 65535 ∧
        a = (List.range 4).map (fun i => load rsa (offAddr4 + i)) ∧
        (offAddr4 + 4 ≤ rsa.length → a = (rsa.drop offAddr4).take 4)) ∧
    (getUint16 o rsa offFamily = AF_INET6 →
      ∃ (port : Int) (zone : Nat) (a : List Nat),
        (anyToSockaddr o rsa).2 = (some (Sockaddr.Inet6 port zone a), none) ∧
        port = ((256 * load rsa offPort + load rsa (offPort + 1) : Nat) : Int) ∧
        0 ≤ port ∧ port ≤ 65535 ∧
        zone = getUint32 o rsa offScopeId ∧
        a = (List.range 16).map (fun i => load rsa (offAddr6 + i)) ∧
        (offAddr6 + 16 ≤ rsa.length → a = (rsa.drop offAddr6).take 16)) := by
  have h2 := load_lt_of_allBytes rsa hb offPort
  have h3 := load_lt_of_allBytes rsa hb (offPort + 1)
  constructor
  · intro hf
    rw [anyToSockaddr_inet4 o rsa hf, decode_port, forLoop_octets4]
    refine ⟨_, _, rfl, rfl, by omega, by omega, rfl, ?_⟩
    intro hlen
    exact map_range_load rsa offAddr4 4 hlen
  · intro hf
    rw [anyToSockaddr_inet6 o rsa hf, decode_port, forLoop_octets16]
    refine ⟨_, _, _, rfl, rfl, by omega, by omega, rfl, rfl, ?_⟩
    intro hlen
    exact map_range_load rsa offAddr6 16 hlen


theorem byte_port_hi (x y : Nat) (hx : x < 256) (hy : y < 256) :
    byte (((256 * x + y : Nat) : Int) >>> (8 : Nat)) = x := by
  unfold byte
  rw [Int.shiftRight_eq_div_pow]
  have h : ((256 * x + y : Nat) : Int) / ((2 ^ 8 : Nat) : Int) % 256 = (x : Int) := by
    norm_num
    omega
  rw [h]; simp

theorem byte_port_lo (x y : Nat) (hy : y < 256) :
    byte ((256 * x + y : Nat) : Int) = y := by
  unfold byte
  have h : ((256 * x + y : Nat) : Int) % 256 = (y : Int) := by
    omega
  rw [h]; simp

theorem uint16Bytes_of_get (o : ByteOrder) (b0 b1 : Nat) (rest : List Nat) (v : Nat)
    (h0 : b0 < 256) (h1 : b1 < 256) (hf : getUint16 o (b0 :: b1 :: rest) 0 = v) :
    uint16Bytes o v = [b0, b1] := by
  subst hf
  cases o <;> simp [getUint16, uint16Bytes, load] <;> omega

theorem inet4_decode_encode (o : ByteOrder) (rsa : List Nat) (h : validRawInet4 o rsa = true) :
    ∃ sa : Sockaddr, (anyToSockaddr o rsa).2 = (some sa, none) ∧
      sockaddr o (some sa) = (some rsa, 16, none) := by
  simp only [validRawInet4, Bool.and_eq_true, decide_eq_true_eq] at h
  obtain ⟨⟨⟨hlen, hb⟩, hf⟩, hz⟩ := h
  obtain ⟨b0, b1, b2, b3, b4, b5, b6, b7, b8, b9, b10, b11, b12, b13, b14, b15, rfl⟩ :
      ∃ b0 b1 b2 b3 b4 b5 b6 b7 b8 b9 b10 b11 b12 b13 b14 b15,
        rsa = [b0, b1, b2, b3, b4, b5, b6, b7, b8, b9, b10, b11, b12, b13, b14, b15] := by
    rw [← range_map_getD_of_length rsa 16 hlen]
    exact ⟨_, _, _, _, _, _, _, _, _, _, _, _, _, _, _, _, rfl⟩
  simp [allBytes, isByte] at hb
  simp [offZero4, List.replicate] at hz
  obtain ⟨h8, h9, h10, h11, h12, h13, h14, h15⟩ := hz
  subst h8 h9 h10 h11 h12 h13 h14 h15
  have hu := uint16Bytes_of_get o b0 b1 _ AF_INET hb.1 hb.2.1 hf
  rw [anyToSockaddr_inet4 o _ hf, decode_port, forLoop_octets4]
  refine ⟨_, rfl, ?_⟩
  rw [sockaddr_inet4_region, hu]
  have hhi := byte_port_hi b2 b3 hb.2.2.1 hb.2.2.2.1
  have hlo := byte_port_lo b2 b3 hb.2.2.2.1
  simp only [load, offPort, offAddr4, List.getD_cons_zero, List.getD_cons_succ] at hhi hlo ⊢
  rw [hhi, hlo]
  rfl


theorem putUint32_getUint32 (o : ByteOrder) (c0 c1 c2 c3 : Nat)
    (h0 : c0 < 256) (h1 : c1 < 256) (h2 : c2 < 256) (h3 : c3 < 256) :
    putUint32 o [0, 0, 0, 0] 0 (getUint32 o [c0, c1, c2, c3] 0) = [c0, c1, c2, c3] := by
  cases o <;> simp [getUint32, putUint32, load] <;> omega

theorem inet6_decode_encode (o : ByteOrder) (rsa : List Nat) (h : validRawInet6 o rsa = true) :
    ∃ sa : Sockaddr, (anyToSockaddr o rsa).2 = (some sa, none) ∧
      sockaddr o (some sa) = (some rsa, 28, none) := by
  simp only [validRawInet6, Bool.and_eq_true, decide_eq_true_eq] at h
  obtain ⟨⟨⟨hlen, hb⟩, hf⟩, hz⟩ := h
  obtain ⟨b0, b1, b2, b3, b4, b5, b6, b7, b8, b9, b10, b11, b12, b13, b14, b15, b16, b17, b18,
      b19, b20, b21, b22, b23, b24, b25, b26, b27, rfl⟩ :
      ∃ b0 b1 b2 b3 b4 b5 b6 b7 b8 b9 b10 b11 b12 b13 b14 b15 b16 b17 b18 b19 b20 b21 b22 b23
        b24 b25 b26 b27,
        rsa = [b0, b1, b2, b3, b4, b5, b6, b7, b8, b9, b10, b11, b12, b13, b14, b15, b16, b17,
          b18, b19, b20, b21, b22, b23, b24, b25, b26, b27] := by
    rw [← range_map_getD_of_length rsa 28 hlen]
    exact ⟨_, _, _, _, _, _, _, _, _, _, _, _, _, _, _, _, _, _, _, _, _, _, _, _, _, _, _, _,
      rfl⟩
  simp [allBytes, isByte] at hb
  simp [offFlowinfo, List.replicate] at hz
  obtain ⟨h4, h5, h6, h7⟩ := hz
  subst h4 h5 h6 h7
  have hu := uint16Bytes_of_get o b0 b1 _ AF_INET6 hb.1 hb.2.1 hf
  rw [anyToSockaddr_inet6 o _ hf, decode_port, forLoop_octets16]
  refine ⟨_, rfl, ?_⟩
  rw [sockaddr_inet6_region, hu]
  have hhi := byte_port_hi b2 b3 hb.2.2.1 hb.2.2.2.1
  have hlo := byte_port_lo b2 b3 hb.2.2.2.1
  have hzone : getUint32 o [b0, b1, b2, b3, 0, 0, 0, 0, b8, b9, b10, b11, b12, b13, b14, b15,
      b16, b17, b18, b19, b20, b21, b22, b23, b24, b25, b26, b27] offScopeId =
      getUint32 o [b24, b25, b26, b27] 0 := by
    cases o <;> rfl
  have hput := putUint32_getUint32 o b24 b25 b26 b27 (by omega) (by omega) (by omega) (by omega)
  simp only [load, offPort, offAddr6, List.getD_cons_zero, List.getD_cons_succ] at hhi hlo ⊢
  rw [hhi, hlo, hzone, hput]
  rfl

/-- C20: for a 16-byte region of family `AF_INET` with zero padding, and for a 28-byte
region of family `AF_INET6` with zero flowinfo, `sockaddr` applied to the address
`anyToSockaddr` returns succeeds and yields the same bytes, with length 16 and 28
respectively. -/
theorem ip_region_roundtrip (o : ByteOrder) (rsa : List Nat)
    (h : validRawInet4 o rsa = true ∨ validRawInet6 o rsa = true) :
    ∃ sa : Sockaddr, (anyToSockaddr o rsa).2 = (some sa, none) ∧
      sockaddr o (some sa) = (some rsa, rsa.length, none) ∧
      (validRawInet4 o rsa = true → rsa.length = 16) ∧
      (validRawInet6 o rsa = true → rsa.length = 28) := by
  have l4 : validRawInet4 o rsa = true → rsa.length = 16 := by
    intro h4
    simp only [validRawInet4, Bool.and_eq_true, decide_eq_true_eq] at h4
    exact h4.1.1.1
  have l6 : validRawInet6 o rsa = true → rsa.length = 28 := by
    intro h6
    simp only [validRawInet6, Bool.and_eq_true, decide_eq_true_eq] at h6
    exact h6.1.1.1
  rcases h with h4 | h6
  · obtain ⟨sa, hd, he⟩ := inet4_decode_encode o rsa h4
    exact ⟨sa, hd, by rw [he, l4 h4], l4, l6⟩
  · obtain ⟨sa, hd, he⟩ := inet6_decode_encode o rsa h6
    exact ⟨sa, hd, by rw [he, l6 h6], l4, l6⟩

/-! ## The claims at concrete inputs -/

/-- A name of 105 bytes gets the length 108, inside the structure. -/
theorem sockaddr_unix_length_bound_witness :
    (List.replicate 105 97).length ≤ 108 ∧
      (sockaddr ByteOrder.bigEndian (some (Sockaddr.Unix (List.replicate 105 97)))).2.1 ≤ 112 :=
  ⟨by simp,
    (sockaddr_unix_length_bound ByteOrder.bigEndian (List.replicate 105 97) (by simp)).1⟩

/-- Port `-1` comes back as 65535. -/
theorem port_range_roundtrip_witness :
    [192, 168, 0, 1].length = 4 ∧ 7 < 4294967296 ∧ (List.range 16).length = 16 ∧
      (-1 : Int) % 65536 = 65535 ∧
      ∃ raw : List Nat,
        (sockaddr ByteOrder.littleEndian (some (Sockaddr.Inet4 (-1) [192, 168, 0, 1]))).1 =
          some raw ∧
        (sockaddr ByteOrder.littleEndian (some (Sockaddr.Inet4 (-1) [192, 168, 0, 1]))).2.2 =
          none ∧
        (anyToSockaddr ByteOrder.littleEndian raw).2 =
          (some (Sockaddr.Inet4 ((-1) % 65536) [192, 168, 0, 1]), none) :=
  ⟨by decide, by decide, by decide, by decide,
    (port_range_roundtrip ByteOrder.littleEndian (-1) [192, 168, 0, 1] (by decide) 7 (by decide)
      (List.range 16) (by decide)).1⟩

/-- An abstract Unix region: only its first path byte changes, to `@`. -/
theorem anyToSockaddr_only_write_witness :
    offPath < (1 :: 0 :: 0 :: 102 :: List.replicate 106 0).length ∧
      allBytes (1 :: 0 :: 0 :: 102 :: List.replicate 106 0) = true ∧
      (anyToSockaddr ByteOrder.littleEndian (1 :: 0 :: 0 :: 102 :: List.replicate 106 0)).1 =
        (1 :: 0 :: 0 :: 102 :: List.replicate 106 0).set offPath 64 :=
  ⟨by decide, by decide,
    ((anyToSockaddr_only_write ByteOrder.littleEndian
      (1 :: 0 :: 0 :: 102 :: List.replicate 106 0) (by decide) (by decide)).2.2.1
        ⟨by decide, by decide⟩).1⟩

/-- A Unix region whose path is all NUL decodes to a name that is not empty. -/
theorem anyToSockaddr_unix_name_witness :
    getUint16 ByteOrder.littleEndian (1 :: List.replicate 109 0) offFamily = AF_UNIX ∧
      offPath < (1 :: List.replicate 109 0).length ∧
      ∃ name : List Nat,
        (anyToSockaddr ByteOrder.littleEndian (1 :: List.replicate 109 0)).2 =
          (some (Sockaddr.Unix name), none) ∧
        1 ≤ name.length ∧ name.length ≤ 108 ∧ 0 ∉ name :=
  ⟨by decide, by decide,
    (anyToSockaddr_unix_name ByteOrder.littleEndian (1 :: List.replicate 109 0) (by decide)
      (by decide)).1⟩

/-- The name `a`, NUL, `b` comes back as `a`. -/
theorem unix_path_cut_at_nul_witness :
    (97 : Nat) ≠ 0 ∧ allBytes (97 :: [0, 98]) = true ∧ (97 :: [0, 98]).length ≤ 108 ∧
      (97 :: [0, 98]).takeWhile (fun x => decide (x ≠ 0)) = [97] ∧
      ∃ raw : List Nat,
        (sockaddr ByteOrder.littleEndian (some (Sockaddr.Unix (97 :: [0, 98])))).1 = some raw ∧
        (sockaddr ByteOrder.littleEndian (some (Sockaddr.Unix (97 :: [0, 98])))).2.2 = none ∧
        (anyToSockaddr ByteOrder.littleEndian raw).2 =
          (some (Sockaddr.Unix ((97 :: [0, 98]).takeWhile (fun x => decide (x ≠ 0)))), none) ∧
        (0 ∉ 97 :: [0, 98] →
          (anyToSockaddr ByteOrder.littleEndian raw).2 =
            (some (Sockaddr.Unix (97 :: [0, 98])), none)) :=
  ⟨by decide, by decide, by decide, by decide,
    unix_path_cut_at_nul ByteOrder.littleEndian 97 [0, 98] (by decide) (by decide) (by decide)⟩

/-- The layout of `127.0.0.1:8080` on a big-endian host. -/
theorem sockaddr_ip_layout_witness :
    [127, 0, 0, 1].length = 4 ∧ 7 < 4294967296 ∧ (List.range 16).length = 16 ∧
      ∃ raw : List Nat,
        sockaddr ByteOrder.bigEndian (some (Sockaddr.Inet4 8080 [127, 0, 0, 1])) =
          (some raw, SizeofSockaddrInet4, none) ∧
        raw.length = 16 ∧
        getUint16 ByteOrder.bigEndian raw offFamily = AF_INET ∧
        (raw.drop offAddr4).take 4 = [127, 0, 0, 1] ∧
        (raw.drop offZero4).take 8 = List.replicate 8 0 :=
  ⟨by decide, by decide, by decide,
    (sockaddr_ip_layout ByteOrder.bigEndian 8080 [127, 0, 0, 1] (by decide) 7 (by decide)
      (List.range 16) (by decide)).1⟩

/-- The region of `127.0.0.1:8080` decodes to port `256 * 31 + 144`. -/
theorem anyToSockaddr_ip_fields_witness :
    allBytes [2, 0, 31, 144, 127, 0, 0, 1, 0, 0, 0, 0, 0, 0, 0, 0] = true ∧
      getUint16 ByteOrder.littleEndian [2, 0, 31, 144, 127, 0, 0, 1, 0, 0, 0, 0, 0, 0, 0, 0]
        offFamily = AF_INET ∧
      ∃ (port : Int) (a : List Nat),
        (anyToSockaddr ByteOrder.littleEndian
          [2, 0, 31, 144, 127, 0, 0, 1, 0, 0, 0, 0, 0, 0, 0, 0]).2 =
            (some (Sockaddr.Inet4 port a), none) ∧
        port = ((256 * load [2, 0, 31, 144, 127, 0, 0, 1, 0, 0, 0, 0, 0, 0, 0, 0] offPort +
          load [2, 0, 31, 144, 127, 0, 0, 1, 0, 0, 0, 0, 0, 0, 0, 0] (offPort + 1) : Nat) : Int) ∧
        0 ≤ port ∧ port ≤ 65535 ∧
        a = (List.range 4).map
          (fun i => load [2, 0, 31, 144, 127, 0, 0, 1, 0, 0, 0, 0, 0, 0, 0, 0] (offAddr4 + i)) ∧
        (offAddr4 + 4 ≤ [2, 0, 31, 144, 127, 0, 0, 1, 0, 0, 0, 0, 0, 0, 0, 0].length →
          a = ([2, 0, 31, 144, 127, 0, 0, 1, 0, 0, 0, 0, 0, 0, 0, 0].drop offAddr4).take 4) :=
  ⟨by decide, by decide,
    (anyToSockaddr_ip_fields ByteOrder.littleEndian
      [2, 0, 31, 144, 127, 0, 0, 1, 0, 0, 0, 0, 0, 0, 0, 0] (by decide)).1 (by decide)⟩

/-- The region of `127.0.0.1:8080` is rebuilt byte for byte from its decoded address. -/
theorem ip_region_roundtrip_witness :
    validRawInet4 ByteOrder.littleEndian [2, 0, 31, 144, 127, 0, 0, 1, 0, 0, 0, 0, 0, 0, 0, 0] =
        true ∧
      ∃ sa : Sockaddr,
        (anyToSockaddr ByteOrder.littleEndian
          [2, 0, 31, 144, 127, 0, 0, 1, 0, 0, 0, 0, 0, 0, 0, 0]).2 = (some sa, none) ∧
        sockaddr ByteOrder.littleEndian (some sa) =
          (some [2, 0, 31, 144, 127, 0, 0, 1, 0, 0, 0, 0, 0, 0, 0, 0],
            [2, 0, 31, 144, 127, 0, 0, 1, 0, 0, 0, 0, 0, 0, 0, 0].length, none) ∧
        (validRawInet4 ByteOrder.littleEndian
            [2, 0, 31, 144, 127, 0, 0, 1, 0, 0, 0, 0, 0, 0, 0, 0] = true →
          [2, 0, 31, 144, 127, 0, 0, 1, 0, 0, 0, 0, 0, 0, 0, 0].length = 16) ∧
        (validRawInet6 ByteOrder.littleEndian
            [2, 0, 31, 144, 127, 0, 0, 1, 0, 0, 0, 0, 0, 0, 0, 0] = true →
          [2, 0, 31, 144, 127, 0, 0, 1, 0, 0, 0, 0, 0, 0, 0, 0].length = 28) :=
  ⟨by decide,
    ip_region_roundtrip ByteOrder.littleEndian
      [2, 0, 31, 144, 127, 0, 0, 1, 0, 0, 0, 0, 0, 0, 0, 0] (Or.inl (by decide))⟩

end Iouring
